import Mathlib

/-!
Shallow embedding of the grammar-driven Earley parsing engine of the
`earleybird` repository (src/src/grammar.rs and src/src/parser.rs),
together with theorems settling the specification claims about it.

Rust `Vec`/`VecDeque` are modelled as `List`, `HashMap`/`MultiMap` as
association lists (the code only ever iterates them through explicitly
ordered side lists, or looks them up by key), `SmolStr` as `String`,
`usize` as `Nat` (all positions are bounded by the input length, far from
overflow).  The Unicode general-category predicate is kept opaque, as an
explicit function argument `uni`.  Loops that are not structurally
recursive in the source receive an explicit fuel parameter; exhausting the
fuel yields `none`, so every `some` result of the model coincides with a
finished run of the source.
-/

namespace Earleybird

/-- Marks on rules / nonterminal references (src/src/grammar.rs, `enum Mark`). -/
inductive Mark where
  | Default
  | Unmute
  | Mute
  | Attr
deriving DecidableEq, Repr

/-- Marks on terminals (src/src/grammar.rs, `enum TMark`): like `Mark`, no `Attr`. -/
inductive TMark where
  | Default
  | Unmute
  | Mute
deriving DecidableEq, Repr

/-- A single character matcher (src/src/grammar.rs, `enum CharMatcher`). -/
inductive CharMatcher where
  | Exact : Char → CharMatcher
  | OneOf : String → CharMatcher
  | Range : Char → Char → CharMatcher
  | UnicodeRange : String → CharMatcher
deriving DecidableEq, Repr

/-- `CharMatcher::accept`.  The Unicode general-category lookup is outside the
core (the spec treats it as an opaque predicate), so it is passed in as `uni`. -/
def CharMatcher.accept (uni : String → Char → Bool) (m : CharMatcher) (test : Char) : Bool :=
  match m with
  | .Exact ch => ch == test
  | .OneOf lst => lst.contains test
  | .Range bot top => test ≤ top && test ≥ bot
  | .UnicodeRange name => uni name test

/-- A character class (src/src/grammar.rs, `struct Lit`). -/
structure Lit where
  matchers : List CharMatcher
  is_exclude : Bool
deriving DecidableEq, Repr

/-- `Lit::accept`. -/
def Lit.accept (uni : String → Char → Bool) (l : Lit) (test : Char) : Bool :=
  if l.is_exclude then
    !(l.matchers.any (fun m => m.accept uni test))
  else
    l.matchers.any (fun m => m.accept uni test)

/-- A factor of a rule (src/src/grammar.rs, `enum Factor`). -/
inductive Factor where
  | Terminal : TMark → Lit → Factor
  | Nonterm : Mark → String → Factor
deriving DecidableEq, Repr

/-- A single alternative: a sequence of factors (src/src/grammar.rs, `struct Rule`). -/
structure Rule where
  factors : List Factor
deriving DecidableEq, Repr

/-- `Rule::len`. -/
def Rule.len (r : Rule) : Nat := r.factors.length

/-- One record per factor already crossed by the dot
(src/src/parser.rs, `enum MatchRec`). -/
inductive MatchRec where
  | Term : Char → Nat → TMark → MatchRec
  | NonTerm : String → Nat → Mark → MatchRec
deriving DecidableEq, Repr

/-- `MatchRec::pos`. -/
def MatchRec.pos (r : MatchRec) : Nat :=
  match r with
  | .Term _ p _ => p
  | .NonTerm _ p _ => p

/-- Dotted rule (src/src/parser.rs, `struct DotNotation`):
`matched_so_far.len()` is the cursor position. -/
structure Dotted where
  iteratee : Rule
  matched_so_far : List MatchRec
deriving DecidableEq, Repr

/-- `DotNotation::new`. -/
def Dotted.init (r : Rule) : Dotted := ⟨r, []⟩

/-- `DotNotation::advance_dot`: returns a new value with the record appended. -/
def Dotted.advance_dot (d : Dotted) (r : MatchRec) : Dotted :=
  ⟨d.iteratee, d.matched_so_far ++ [r]⟩

/-- `DotNotation::is_completed`. -/
def Dotted.is_completed (d : Dotted) : Bool :=
  d.iteratee.len == d.matched_so_far.length

/-- `DotNotation::next_unparsed` ("what's next after the dot?").  The source
indexes the factor list (panicking out of range); callers only invoke it on
non-completed dots, so we return an `Option` and the `none` case is dead. -/
def Dotted.next_unparsed (d : Dotted) : Option Factor :=
  d.iteratee.factors.get? d.matched_so_far.length

/-- An Earley item (src/src/parser.rs, `struct Task`). -/
structure Task where
  id : Nat
  name : String
  mark : Mark
  origin : Nat
  pos : Nat
  dot : Dotted
deriving DecidableEq, Repr

instance : Inhabited Task := ⟨⟨0, "", .Default, 0, 0, ⟨⟨[]⟩, []⟩⟩⟩

/-! ### Display strings

The recognizer deduplicates tasks by their `Display` rendering
(`impl fmt::Display for Task`: "This is currently ONLY used as a hash of
Task").  We reproduce those rendering functions. -/

/-- Single-quote character, used by the `Display` forms. -/
def sqStr : String := String.singleton (Char.ofNat 39)

/-- Double-quote character. -/
def dqStr : String := String.singleton (Char.ofNat 34)

/-- `impl fmt::Display for Mark`. -/
def Mark.str (m : Mark) : String :=
  match m with
  | .Default => ""
  | .Unmute => "^"
  | .Mute => "-"
  | .Attr => "@"

/-- `impl fmt::Display for TMark`. -/
def TMark.str (m : TMark) : String :=
  match m with
  | .Default => ""
  | .Unmute => "^"
  | .Mute => "-"

/-- `impl fmt::Display for CharMatcher`. -/
def CharMatcher.str (m : CharMatcher) : String :=
  match m with
  | .Exact ch => sqStr ++ String.singleton ch ++ sqStr
  | .OneOf s => "[" ++ dqStr ++ s ++ dqStr ++ "]"
  | .Range bot top =>
      "[" ++ dqStr ++ String.singleton bot ++ dqStr ++ "-" ++ dqStr ++ String.singleton top ++ dqStr ++ "]"
  | .UnicodeRange name => "Unicode range " ++ name

/-- `impl fmt::Display for Lit`. -/
def Lit.str (l : Lit) : String :=
  (if l.is_exclude then "~" else "") ++ "[" ++ String.intercalate " | " (l.matchers.map CharMatcher.str) ++ "]"

/-- `impl fmt::Display for Factor`. -/
def Factor.str (f : Factor) : String :=
  match f with
  | .Terminal tmark lit => tmark.str ++ lit.str
  | .Nonterm mark s => mark.str ++ s

/-- The `Display` rendering of one handled `MatchRec`
(from `impl fmt::Display for DotNotation`). -/
def MatchRec.str (r : MatchRec) : String :=
  match r with
  | .Term ch pos tmark => tmark.str ++ sqStr ++ String.singleton ch ++ sqStr ++ "@" ++ toString pos
  | .NonTerm name pos mark => mark.str ++ name ++ "@" ++ toString pos

/-- The dot separator `DOTSEP`. -/
def DOTSEP : String := "•"

/-- `impl fmt::Display for DotNotation`. -/
def Dotted.str (d : Dotted) : String :=
  let done := String.intercalate ", " (d.matched_so_far.map MatchRec.str)
  let remain :=
    String.intercalate ", " ((d.iteratee.factors.drop d.matched_so_far.length).map Factor.str)
  done ++ " " ++ DOTSEP ++ " " ++ remain

/-- `impl fmt::Display for Task`: the dedup hash of a task.  Note it renders
the mark, name, origin, pos and dot, but not the id. -/
def Task.sigString (t : Task) : String :=
  "( " ++ t.mark.str ++ t.name ++ " " ++ toString t.origin ++ ":" ++ toString t.pos
    ++ " " ++ t.dot.str ++ ") "

/-- The signature tuple the spec describes for duplicate suppression:
`(name, effectiveMark, origin, pos, dot contents)`.  `sigString` is a function
of exactly these components. -/
def Task.sigTuple (t : Task) : String × Mark × Nat × Nat × Dotted :=
  (t.name, t.mark, t.origin, t.pos, t.dot)

/-! ### Association-list helpers

`HashMap` values in the source are only ever (a) looked up by key, or
(b) iterated through a separately maintained insertion-order list; we model
them as association lists with at most one entry per key. -/

/-- Look up the first entry with the given key. -/
def alFind? {α : Type} : List (String × α) → String → Option α
  | [], _ => none
  | p :: rest, k => if p.1 = k then some p.2 else alFind? rest k

/-- `HashMap::remove`: drop the entry with the given key. -/
def alRemove {α : Type} (l : List (String × α)) (k : String) : List (String × α) :=
  match l with
  | [] => []
  | p :: rest => if p.1 == k then rest else p :: alRemove rest k

/-- `HashMap::insert`: replace the value at the key, or add the entry. -/
def alInsertReplace {α : Type} (l : List (String × α)) (k : String) (v : α) :
    List (String × α) :=
  match l with
  | [] => [(k, v)]
  | p :: rest => if p.1 == k then (k, v) :: rest else p :: alInsertReplace rest k v

/-- `map.entry(k).or_insert(Vec::new()).push(v)`: append `v` to the list stored
at `k`, creating the entry if absent. -/
def alAppendAt {α : Type} (l : List (String × List α)) (k : String) (v : α) :
    List (String × List α) :=
  match l with
  | [] => [(k, [v])]
  | p :: rest => if p.1 == k then (p.1, p.2 ++ [v]) :: rest else p :: alAppendAt rest k v

/-! ### Sequence builder (src/src/grammar.rs, `struct SeqBuilder`)

The `RuleContext` back-reference (rule name plus interior-mutable counter) is
modelled by threading the rule name and the counter value explicitly through
the composite builders. -/

/-- `SeqBuilder`: the main factor list, the synthesized rules collected so
far (name → list of builders, one per alternative), and their insertion
order. -/
inductive SB where
  | mk : List Factor → List (String × List SB) → List String → SB

/-- The factor list under construction. -/
def SB.factors : SB → List Factor
  | .mk f _ _ => f

/-- The synthesized rules collected so far. -/
def SB.syn_rules : SB → List (String × List SB)
  | .mk _ s _ => s

/-- Insertion order of the synthesized rule names. -/
def SB.defn_order : SB → List String
  | .mk _ _ o => o

/-- `RuleContext::seq` / `SeqBuilder::new`: a fresh empty builder. -/
def SB.empty : SB := .mk [] [] []

/-- `SeqBuilder::mark_nt`. -/
def SB.mark_nt (s : SB) (name : String) (mark : Mark) : SB :=
  .mk (s.factors ++ [Factor.Nonterm mark name]) s.syn_rules s.defn_order

/-- `SeqBuilder::nt`. -/
def SB.nt (s : SB) (name : String) : SB := s.mark_nt name .Default

/-- `SeqBuilder::mark_ch` (via `Factor::new_lit(Lit::union().ch(ch), tmark)`). -/
def SB.mark_ch (s : SB) (ch : Char) (tmark : TMark) : SB :=
  .mk (s.factors ++ [Factor.Terminal tmark ⟨[CharMatcher.Exact ch], false⟩]) s.syn_rules s.defn_order

/-- `SeqBuilder::ch`. -/
def SB.ch (s : SB) (c : Char) : SB := s.mark_ch c .Default

/-- `SeqBuilder::expr`: drain the sub-builder's main factor list onto this
one.  (The source consumes `sub`, discarding any synthesized rules it still
holds; its callers siphon `sub` first.) -/
def SB.expr (s sub : SB) : SB :=
  .mk (s.factors ++ sub.factors) s.syn_rules s.defn_order

/-- Inner loop of `SeqBuilder::siphon`: walk the sub-builder's `defn_order`,
moving each synthesized rule into the accumulating builder.  The source
`expect`s that every drained name has an entry (panicking otherwise); the
`none` branch is that dead case. -/
def siphonGo : List String → List (String × List SB) → SB → SB × List (String × List SB)
  | [], subMap, acc => (acc, subMap)
  | n :: rest, subMap, acc =>
    match alFind? subMap n with
    | some rules =>
        siphonGo rest (alRemove subMap n)
          (.mk acc.factors (alInsertReplace acc.syn_rules n rules) (acc.defn_order ++ [n]))
    | none => siphonGo rest subMap acc

/-- `SeqBuilder::siphon`: transfer the sub-builder's synthesized rules
(preserving insertion order) into this builder, draining the sub-builder.
Returns the updated builder and the drained sub-builder. -/
def SB.siphon (s sub : SB) : SB × SB :=
  let (s', rem) := siphonGo sub.defn_order sub.syn_rules s
  (s', .mk sub.factors rem [])

/-- `SeqBuilder::syn_rule`: record an entirely new synthesized named rule.
Siphons the sub-builder first, then pushes it as a further alternative for
`name`, recording the name in `defn_order` on first appearance. -/
def SB.syn_rule (s : SB) (name : String) (rb : SB) : SB :=
  let (s1, rbD) := s.siphon rb
  let syn := alAppendAt s1.syn_rules name rbD
  let order := if s1.defn_order.contains name then s1.defn_order else s1.defn_order ++ [name]
  .mk s1.factors syn order

/-- `SeqBuilder::mint_internal_id`: `--<rulename>.<hint><counter>`.  The
counter comes from the `RuleContext` (`get_and_increment_next_id`), threaded
explicitly here. -/
def mint_internal_id (rulename hint : String) (cnt : Nat) : String :=
  "--" ++ rulename ++ "." ++ hint ++ toString cnt

/-- `SeqBuilder::opt`: `f? ⇒ f-option` with `-f-option: f | ().`
Takes the context's rule name and counter, returns the updated builder and
counter. -/
def SB.opt (rulename : String) (cnt : Nat) (s sub : SB) : SB × Nat :=
  let (s1, subD) := s.siphon sub
  let fOption := mint_internal_id rulename "f-option" cnt
  let s2 := s1.syn_rule fOption SB.empty
  let s3 := s2.syn_rule fOption subD
  (s3.mark_nt fOption .Mute, cnt + 1)

/-! ### Grammar (src/src/grammar.rs, `struct Grammar`) -/

/-- All branches of a rule (src/src/grammar.rs, `struct BranchingRule`). -/
structure BranchingRule where
  mark : Mark
  alts : List Rule
  is_internal : Bool
deriving DecidableEq, Repr

/-- `BranchingRule::new`. -/
def BranchingRule.init (mark : Mark) : BranchingRule := ⟨mark, [], false⟩

/-- The grammar: definitions keyed by rule name, plus the insertion order of
the names (`defn_order`). -/
structure Grammar where
  definitions : List (String × BranchingRule)
  defn_order : List String
deriving DecidableEq, Repr

/-- `Grammar::new`. -/
def Grammar.empty : Grammar := ⟨[], []⟩

/-- `Grammar::get_definition`, as an `Option` (the source returns a
`StaticError` for a missing name). -/
def Grammar.getDefinition? (g : Grammar) (name : String) : Option BranchingRule :=
  alFind? g.definitions name

/-- One `definitions.entry(name).or_insert_with(|| { defn_order.push(name);
BranchingRule::new(mark) })` followed by `add_alt_branch(rule)`. -/
def Grammar.addAlt (g : Grammar) (mark : Mark) (name : String) (r : Rule) : Grammar :=
  match alFind? g.definitions name with
  | some br =>
      ⟨alInsertReplace g.definitions name ⟨br.mark, br.alts ++ [r], br.is_internal⟩, g.defn_order⟩
  | none =>
      ⟨g.definitions ++ [(name, ⟨mark, [r], false⟩)], g.defn_order ++ [name]⟩

/-- `Grammar::mark_define`: append the builder's main factor list as a new
alternative for `name` (first call fixes the mark), then merge every
synthesized rule, in recorded insertion order, each with default mark `Mute`.
(The source indexes `sb.syn_rules[&syn_name]`, panicking if `defn_order` and
the map disagree; the `getD []` below is that dead case.) -/
def Grammar.mark_define (g : Grammar) (mark : Mark) (name : String) (sb : SB) : Grammar :=
  let g1 := g.addAlt mark name ⟨sb.factors⟩
  sb.defn_order.foldl
    (fun g2 synName =>
      ((alFind? sb.syn_rules synName).getD []).foldl
        (fun g3 b => g3.addAlt .Mute synName ⟨b.factors⟩) g2)
    g1

/-- `Grammar::define`. -/
def Grammar.define (g : Grammar) (name : String) (sb : SB) : Grammar :=
  g.mark_define .Default name sb

/-- `Grammar::get_root_definition_name`. -/
def Grammar.rootName? (g : Grammar) : Option String := g.defn_order.head?

/-! #### Grammar serialization (`impl fmt::Display for Grammar`)

Each alternative prints its factors with `format!("{:?}", f)` — the derived
Rust `Debug` form — joined by `", "`; definitions are emitted in `defn_order`
order as `<mark><name>= <alt1> | <alt2>… .\n`. -/

/-- Derived `Debug` form of `Mark`. -/
def Mark.debugStr (m : Mark) : String :=
  match m with
  | .Default => "Default"
  | .Unmute => "Unmute"
  | .Mute => "Mute"
  | .Attr => "Attr"

/-- Derived `Debug` form of `TMark`. -/
def TMark.debugStr (m : TMark) : String :=
  match m with
  | .Default => "Default"
  | .Unmute => "Unmute"
  | .Mute => "Mute"

/-- Derived `Debug` form of `CharMatcher` (ordinary characters; the engine
never escapes them for the grammar display). -/
def CharMatcher.debugStr (m : CharMatcher) : String :=
  match m with
  | .Exact ch => "Exact(" ++ sqStr ++ String.singleton ch ++ sqStr ++ ")"
  | .OneOf s => "OneOf(" ++ dqStr ++ s ++ dqStr ++ ")"
  | .Range bot top =>
      "Range(" ++ sqStr ++ String.singleton bot ++ sqStr ++ ", "
        ++ sqStr ++ String.singleton top ++ sqStr ++ ")"
  | .UnicodeRange s => "UnicodeRange(" ++ dqStr ++ s ++ dqStr ++ ")"

/-- Derived `Debug` form of `Lit`. -/
def Lit.debugStr (l : Lit) : String :=
  "Lit \x7b matchers: [" ++ String.intercalate ", " (l.matchers.map CharMatcher.debugStr)
    ++ "], is_exclude: " ++ (if l.is_exclude then "true" else "false") ++ " \x7d"

/-- Derived `Debug` form of `Factor`. -/
def Factor.debugStr (f : Factor) : String :=
  match f with
  | .Terminal tm l => "Terminal(" ++ tm.debugStr ++ ", " ++ l.debugStr ++ ")"
  | .Nonterm m n => "Nonterm(" ++ m.debugStr ++ ", " ++ dqStr ++ n ++ dqStr ++ ")"

/-- `impl fmt::Display for Rule`. -/
def Rule.displayStr (r : Rule) : String :=
  String.intercalate ", " (r.factors.map Factor.debugStr)

/-- The serialized line for one definition. -/
def Grammar.defnLine (g : Grammar) (name : String) : String :=
  let br := (g.getDefinition? name).getD (BranchingRule.init .Default)
  br.mark.str ++ name ++ "= " ++ String.intercalate " | " (br.alts.map Rule.displayStr) ++ ".\n"

/-- `impl fmt::Display for Grammar`: iterate `defn_order`. -/
def Grammar.displayStr (g : Grammar) : String :=
  String.join (g.defn_order.map g.defnLine)

/-! ### The Earley recognizer (src/src/parser.rs) -/

/-- `enum ParseError`. -/
inductive ParseError where
  | StaticError : String → ParseError
  | DynamicError : String → ParseError
  | UncategorizedError : String → ParseError
deriving DecidableEq, Repr

/-- `struct TraceArena`: the arena of tasks, the pending queue, the
continuation multimap and the dedup hash set. -/
structure TraceArena where
  arena : List Task
  queue : List Nat
  continuations : List (String × Nat)
  hashes : List String
deriving Repr

/-- `TraceArena::new`. -/
def TraceArena.init : TraceArena := ⟨[], [], [], []⟩

/-- `TraceArena::get`. -/
def TraceArena.getTask (ta : TraceArena) (id : Nat) : Task :=
  ta.arena.getD id default

/-- Common core of `TraceArena::task` / `task_downstream` / the save path of
`task_advance_cursor`: check `have_we_seen` (the `Display` hash), and either
discard the task (returning `none`, arena untouched) or record the hash and
`save_task` it. -/
def TraceArena.trySave (ta : TraceArena) (t : Task) : Option Nat × TraceArena :=
  if ta.hashes.contains t.sigString then
    (none, ta)
  else
    (some t.id, ⟨ta.arena ++ [t], ta.queue, ta.continuations, t.sigString :: ta.hashes⟩)

/-- `TraceArena::task`: originate a completely new task (id = arena index). -/
def TraceArena.task (ta : TraceArena) (name : String) (mark : Mark) (origin pos : Nat)
    (dot : Dotted) : Option Nat × TraceArena :=
  ta.trySave ⟨ta.arena.length, name, mark, origin, pos, dot⟩

/-- `TraceArena::task_downstream` (verbatim the same body as `task` in the
source). -/
def TraceArena.task_downstream (ta : TraceArena) (name : String) (mark : Mark)
    (origin pos : Nat) (dot : Dotted) : Option Nat × TraceArena :=
  ta.task name mark origin pos dot

/-- `TraceArena::task_advance_cursor`: clone a task advancing the cursor; the
new position is the record's position. -/
def TraceArena.task_advance_cursor (ta : TraceArena) (frm : Nat) (r : MatchRec) :
    Option Nat × TraceArena :=
  let newPos := r.pos
  let fromTask := ta.getTask frm
  let newDot := fromTask.dot.advance_dot r
  ta.trySave ⟨ta.arena.length, fromTask.name, fromTask.mark, fromTask.origin, newPos, newDot⟩

/-- `TraceArena::save_continuation`. -/
def TraceArena.save_continuation (ta : TraceArena) (targetNt : String) (tid : Nat) :
    TraceArena :=
  ⟨ta.arena, ta.queue, ta.continuations ++ [(targetNt, tid)], ta.hashes⟩

/-- `TraceArena::get_continuations_for`: all ids registered under the name,
in insertion order. -/
def TraceArena.get_continuations_for (ta : TraceArena) (targetNt : String) : List Nat :=
  (ta.continuations.filter (fun p => p.1 == targetNt)).map (fun p => p.2)

/-- `Parser::queue_front`. -/
def TraceArena.queueFront (ta : TraceArena) (maybeId : Option Nat) : TraceArena :=
  match maybeId with
  | some id => ⟨ta.arena, id :: ta.queue, ta.continuations, ta.hashes⟩
  | none => ta

/-- `Parser::queue_back`. -/
def TraceArena.queueBack (ta : TraceArena) (maybeId : Option Nat) : TraceArena :=
  match maybeId with
  | some id => ⟨ta.arena, ta.queue ++ [id], ta.continuations, ta.hashes⟩
  | none => ta

/-- The EOF sentinel character `'\x1f'` returned by `InputIter::get_at` past
the end of input. -/
def eofChar : Char := Char.ofNat 31

/-- The placeholder character recorded by the completer's (unreachable)
terminal branch. -/
def qmarkChar : Char := Char.ofNat 63

/-- `InputIter::get_at`: the token at `pos`, or the EOF sentinel at or past
the end. -/
def getAt (input : List Char) (pos : Nat) : Char :=
  input.getD pos eofChar

/-- The effective-mark resolution of the predictor (src/src/parser.rs,
`Parser::parse`), arm for arm the `match (defn_mark, mark)` of the source. -/
def effective_mark (defnMark mark : Mark) : Mark :=
  match defnMark, mark with
  | .Default, .Default => .Default
  | .Mute, .Unmute => .Unmute
  | .Attr, _ | _, .Attr => .Attr
  | .Mute, _ | _, .Mute => .Mute
  | .Unmute, _ | _, .Unmute => .Unmute

/-- The mutable recognizer state of `Parser::parse`: the trace arena, the
completed trace and `farthest_pos`. -/
structure PState where
  traces : TraceArena
  completed : List Nat
  farthest : Nat
deriving Repr

/-- The body of the completer's continuation loop (one `continue_id`): skip
continuations at an incompatible position, otherwise advance the
continuation's dot over the record derived from its next-after-dot factor
and enqueue the clone at the back. -/
def completerBody (tid : Nat) (ta : TraceArena) (continueId : Nat) : TraceArena :=
  -- make sure we only continue from a compatible position
  if (ta.getTask continueId).pos ≠ (ta.getTask tid).origin then ta
  else
    match (ta.getTask continueId).dot.next_unparsed with
    | some (.Nonterm mark name) =>
        let (mid, ta') :=
          ta.task_advance_cursor continueId (.NonTerm name (ta.getTask tid).pos mark)
        ta'.queueBack mid
    | some (.Terminal tmark _) =>
        let (mid, ta') :=
          ta.task_advance_cursor continueId (.Term qmarkChar (ta.getTask tid).pos tmark)
        ta'.queueBack mid
    | none => ta   -- dead: registered continuations have a next factor

/-- COMPLETER: for every continuation registered under the completed task's
name, run the body. -/
def completer (ta0 : TraceArena) (tid : Nat) : TraceArena :=
  (ta0.get_continuations_for (ta0.getTask tid).name).foldl (completerBody tid) ta0

/-- PREDICTOR: register the continuation, resolve the effective mark, and
enqueue (at the front) one downstream task per alternative of the
definition.

The source evaluates `g.get_definition_mark(&name)` and matches the result
directly as a `Mark` (the snapshot's types disagree: the function returns a
`Result`); the only value that `match` can consume is the definition's mark,
which is what we use.  A name without definition predicts nothing (the
source would instead surface a `StaticError`); none of the runs considered
by the theorems below hit that case. -/
def predictor (g : Grammar) (tid : Nat) (mark : Mark) (name : String)
    (ta0 : TraceArena) : TraceArena :=
  let ta1 := ta0.save_continuation name tid
  let defnMark := match g.getDefinition? name with
    | some br => br.mark
    | none => .Default
  let effectiveMark := effective_mark defnMark mark
  let alts := match g.getDefinition? name with
    | some br => br.alts
    | none => []
  alts.foldl
    (fun ta rule =>
      let newPos := (ta.getTask tid).pos
      let (mid, ta') := ta.task_downstream name effectiveMark newPos newPos (Dotted.init rule)
      ta'.queueFront mid)
    ta1

/-- SCANNER: test the matcher against the input character (the EOF sentinel
past the end); on a match, advance the dot and enqueue at the back,
otherwise drop the branch silently. -/
def scanner (uni : String → Char → Bool) (input : List Char) (tid : Nat)
    (tmark : TMark) (matcher : Lit) (ta0 : TraceArena) : TraceArena :=
  let currentPos := (ta0.getTask tid).pos
  if matcher.accept uni (getAt input currentPos) then
    let mrec := MatchRec.Term (getAt input currentPos) (currentPos + 1) tmark
    let (mid, ta1) := ta0.task_advance_cursor tid mrec
    ta1.queueBack mid
  else
    ta0

/-- Processing of one popped task id `tid` (the rest of the queue is
`rest`): dispatch to the completer, the predictor or the scanner, updating
`farthest_pos` first. -/
def stepGo (g : Grammar) (uni : String → Char → Bool) (input : List Char) (st : PState)
    (tid : Nat) (rest : List Nat) : PState :=
  let ta0 : TraceArena := ⟨st.traces.arena, rest, st.traces.continuations, st.traces.hashes⟩
  let currentPos := (ta0.getTask tid).pos
  let far := if currentPos > st.farthest then currentPos else st.farthest
  if (ta0.getTask tid).dot.is_completed then
    ⟨completer ta0 tid, st.completed ++ [tid], far⟩
  else
    match (ta0.getTask tid).dot.next_unparsed with
    | some (.Nonterm mark name) => ⟨predictor g tid mark name ta0, st.completed, far⟩
    | some (.Terminal tmark matcher) =>
        ⟨scanner uni input tid tmark matcher ta0, st.completed, far⟩
    | none => ⟨ta0, st.completed, far⟩   -- dead: a non-completed dot has a next factor

/-- One iteration of the `while let Some(tid) = queue.pop_front()` loop of
`Parser::parse`.  (If the queue is empty the state is returned unchanged;
the driver `loopRec` below stops in that case.) -/
def step (g : Grammar) (uni : String → Char → Bool) (input : List Char) (st : PState) :
    PState :=
  match st.traces.queue with
  | [] => st
  | tid :: rest => stepGo g uni input st tid rest

/-- The recognizer loop, driven by fuel.  `loop g uni input fuel st` runs up
to `fuel` queue pops; once the queue is empty the state is final. -/
def loopRec (g : Grammar) (uni : String → Char → Bool) (input : List Char) :
    Nat → PState → PState
  | 0, st => st
  | Nat.succ n, st =>
    if st.traces.queue.isEmpty then st
    else loopRec g uni input n (step g uni input st)

/-- The seeding phase of `Parser::parse`: enqueue one fresh item per
alternative of the root definition (pushed to the front), or fail with a
`StaticError`. -/
def initState (g : Grammar) : Except ParseError PState :=
  match g.rootName? with
  | none => .error (.StaticError "No top grammar rule")
  | some rootName =>
    match g.getDefinition? rootName with
    | none => .error (.StaticError ("missing rule definition for " ++ rootName))
    | some topRule =>
      let ta := topRule.alts.foldl
        (fun ta alt =>
          let (mid, ta') := ta.task rootName topRule.mark 0 0 (Dotted.init alt)
          ta'.queueFront mid)
        TraceArena.init
      .ok ⟨ta, [], 0⟩

/-- The recognizer state after seeding and (up to `fuel` iterations of) the
main loop; `none` when the grammar has no seedable root. -/
def afterLoop (g : Grammar) (uni : String → Char → Bool) (input : String) (fuel : Nat) :
    Option PState :=
  match initState g with
  | .error _ => none
  | .ok st0 => some (loopRec g uni input.toList fuel st0)

/-- The task arena after recognition (empty when seeding failed). -/
def arenaAfter (g : Grammar) (uni : String → Char → Bool) (input : String) (fuel : Nat) :
    List Task :=
  match afterLoop g uni input fuel with
  | some st => st.traces.arena
  | none => []

/-- The completed trace after recognition. -/
def completedAfter (g : Grammar) (uni : String → Char → Bool) (input : String) (fuel : Nat) :
    List Nat :=
  match afterLoop g uni input fuel with
  | some st => st.completed
  | none => []

/-- The continuation index after recognition. -/
def contsAfter (g : Grammar) (uni : String → Char → Bool) (input : String) (fuel : Nat) :
    List (String × Nat) :=
  match afterLoop g uni input fuel with
  | some st => st.traces.continuations
  | none => []

/-- The whole trace arena after recognition. -/
def tracesAfter (g : Grammar) (uni : String → Char → Bool) (input : String) (fuel : Nat) :
    TraceArena :=
  match afterLoop g uni input fuel with
  | some st => st.traces
  | none => TraceArena.init

/-- The continuations retrieved for a name after recognition. -/
def contFor (g : Grammar) (uni : String → Char → Bool) (input : String) (fuel : Nat)
    (nm : String) : List Nat :=
  (tracesAfter g uni input fuel).get_continuations_for nm

/-- The `Display` hash as a function of the signature tuple alone. -/
def sigOfTuple (tu : String × Mark × Nat × Nat × Dotted) : String :=
  "( " ++ tu.2.1.str ++ tu.1 ++ " " ++ toString tu.2.2.1 ++ ":" ++ toString tu.2.2.2.1
    ++ " " ++ tu.2.2.2.2.str ++ ") "

/-! ### Tree reconstruction (src/src/parser.rs, `unpack_parse_tree`)

The `indextree::Arena<Content>` is modelled as a list of nodes in creation
order; `new_node` followed by `parent.append(child)` becomes `addChild`.
Children of a node are its nodes in index order (indextree keeps sibling
insertion order); `descendants` is the preorder traversal starting at the
node itself. -/

/-- `enum Content`: the node payloads of the output tree. -/
inductive Content where
  | Root : Content
  | Element : String → Content
  | Attribute : String → String → Content
  | Text : String → Content
deriving DecidableEq, Repr

/-- One arena node: parent link plus content. -/
structure TreeNode where
  parent : Option Nat
  content : Content
deriving DecidableEq, Repr

instance : Inhabited TreeNode := ⟨⟨none, .Root⟩⟩

/-- The tree arena. -/
structure TreeArena where
  nodes : List TreeNode
deriving DecidableEq, Repr

/-- `arena.new_node(data)` followed by `parent.append(new, arena)`; the new
node's id is the previous length. -/
def TreeArena.addChild (a : TreeArena) (parent : Nat) (c : Content) : TreeArena :=
  ⟨a.nodes ++ [⟨some parent, c⟩]⟩

/-- The content stored at a node id. -/
def TreeArena.contentAt (a : TreeArena) (i : Nat) : Content :=
  (a.nodes.getD i default).content

/-- The children of node `i`, in index (= insertion) order. -/
def TreeArena.childrenOf (a : TreeArena) (i : Nat) : List Nat :=
  (List.range a.nodes.length).filter (fun j => (a.nodes.getD j default).parent == some i)

/-- Preorder descendants, fuelled by the recursion depth; in every arena this
model builds, a child's index is strictly larger than its parent's, so a fuel
of `a.nodes.length` always suffices. -/
def TreeArena.descendAux (a : TreeArena) : Nat → Nat → List Nat
  | 0, i => [i]
  | Nat.succ f, i => i :: (a.childrenOf i).flatMap (fun j => a.descendAux f j)

/-- `NodeId::descendants`: the node itself followed by all descendants, in
preorder. -/
def TreeArena.descendants (a : TreeArena) (i : Nat) : List Nat :=
  a.descendAux a.nodes.length i

/-- Rust `str::replace('"', "&quot;")`: replace every double-quote character
by the entity.  (Defined by hand so that it evaluates inside the kernel.) -/
def replaceQuote (s : String) : String :=
  String.join (s.data.map (fun c => if c == Char.ofNat 34 then "&quot;" else String.singleton c))

/-- Rust `str::starts_with('-')` on the rule name.  (Defined by hand so that
it evaluates inside the kernel.) -/
def startsWithDash (s : String) : Bool :=
  match s.data with
  | [] => false
  | c :: _ => c == Char.ofNat 45

/-- `Parser::unpack_attr_value`: concatenate, over all descendants of the
attribute node, the text content (empty for non-text nodes) with `"`
replaced by `&quot;`. -/
def unpack_attr_value (a : TreeArena) (attrNid : Nat) : String :=
  (a.descendants attrNid).foldl
    (fun acc d =>
      match a.contentAt d with
      | .Text txt => acc ++ replaceQuote txt
      | _ => acc ++ "")
    ""

/-- `Content::set_value` on the node at `nid` (the source panics on contents
that cannot hold a value; the caller only passes attribute nodes). -/
def TreeArena.setValue (a : TreeArena) (nid : Nat) (v : String) : TreeArena :=
  let nd := a.nodes.getD nid default
  match nd.content with
  | .Attribute name _ => ⟨a.nodes.set nid ⟨nd.parent, .Attribute name v⟩⟩
  | .Text _ => ⟨a.nodes.set nid ⟨nd.parent, .Text v⟩⟩
  | _ => a

/-- `Parser::filter_completed_trace`: the first completed task with the given
name, origin and position. -/
def filter_completed_trace (tasks : List Task) (completed : List Nat)
    (name : String) (origin pos : Nat) : Option Task :=
  (completed.map (fun tid => tasks.getD tid default)).find?
    (fun t => t.name == name && t.origin == origin && t.pos == pos)

/-- The child-processing loop of `unpack_parse_tree_internal`: walk the
`matched_so_far` records, appending text nodes for non-mute terminals and
recursing (via `walkChild`, the tied-back recursive call) for nonterminals.
`none` reports that either the recursion guard `assert!` fired (the source
panics there) or a deeper call ran out of fuel. -/
def runRecs (walkChild : TreeArena → String → Mark → Nat → Nat → Option TreeArena)
    (name : String) (origin endPos myId : Nat) :
    List MatchRec → TreeArena → Nat → Option TreeArena
  | [], arena, _ => some arena
  | (MatchRec.Term ch _p tmark) :: rest, arena, _cursor =>
      let arena' :=
        if tmark ≠ TMark.Mute then arena.addChild myId (.Text (String.singleton ch))
        else arena
      runRecs walkChild name origin endPos myId rest arena' (MatchRec.Term ch _p tmark).pos
  | (MatchRec.NonTerm n p cmark) :: rest, arena, cursor =>
      -- guard against infinite recursion (the source's assert!)
      if n == name && cursor == origin && p == endPos then none
      else
        match walkChild arena n cmark cursor p with
        | none => none
        | some arena' => runRecs walkChild name origin endPos myId rest arena' p

/-- `Parser::unpack_parse_tree_internal`, fuelled.  Looks up the first
completed task with the given signature; completed rules with mark `Mute` or
a name starting with `-` produce no node (children attach to `root`); mark
`Attr` produces an `Attribute` node with empty value; otherwise an `Element`
node. -/
def walk (tasks : List Task) (completed : List Nat) :
    Nat → TreeArena → String → Mark → Nat → Nat → Nat → Option TreeArena
  | 0, _, _, _, _, _, _ => none
  | Nat.succ fuel, arena, name, _mark, origin, endPos, root =>
    match filter_completed_trace tasks completed name origin endPos with
    | none => some arena   -- "No matching traces": nothing is emitted
    | some task =>
      let skip := task.mark == Mark.Mute || startsWithDash task.name
      let arena1 := if skip then arena
        else if task.mark == Mark.Attr then arena.addChild root (.Attribute task.name "")
        else arena.addChild root (.Element task.name)
      let myId := if skip then root else arena.nodes.length
      runRecs (fun a n m c p => walk tasks completed fuel a n m c p myId)
        name origin endPos myId task.dot.matched_so_far arena1 origin

/-- The fuel `unpack_parse_tree` hands to `walk`; the termination theorem
below shows it always suffices on recognizer output. -/
def walkFuel (st : PState) : Nat :=
  (st.farthest + 1) * (st.completed.length + 1) + 2

/-- `Parser::unpack_parse_tree`: build the tree from the completed trace
(walking from the root rule name over the span `0..farthest_pos`), then run
the attribute post-pass: for every `Attribute` node, in arena order, set its
value to the concatenation of its text descendants. -/
def unpack_parse_tree (g : Grammar) (st : PState) : Option TreeArena :=
  let arena0 : TreeArena := ⟨[⟨none, .Root⟩]⟩
  let name := (g.rootName?).getD ""     -- the source unwraps; parse has seeded the root
  match walk st.traces.arena st.completed (walkFuel st) arena0 name .Default 0 st.farthest 0 with
  | none => none
  | some a1 =>
    let attrNodeIds := (List.range a1.nodes.length).filter
      (fun i => match a1.contentAt i with | .Attribute _ _ => true | _ => false)
    some (attrNodeIds.foldl (fun a nid => a.setValue nid (unpack_attr_value a nid)) a1)

/-- `Parser::parse` end to end: seed, run the recognizer loop, unpack.
`none` means the bounded model ran out of fuel (or the source would have
panicked at the reconstruction `assert!`); every `some` result is the
source's behavior. -/
def parse (g : Grammar) (uni : String → Char → Bool) (input : String) (fuel : Nat) :
    Option (Except ParseError TreeArena) :=
  match initState g with
  | .error e => some (.error e)
  | .ok st0 =>
    let st := loopRec g uni input.toList fuel st0
    if st.traces.queue.isEmpty then
      match unpack_parse_tree g st with
      | some a => some (.ok a)
      | none => none
    else none

/-- The node list of a successful `parse` result (`none` for an error or an
out-of-fuel run); convenient for stating concrete-run facts. -/
def parseNodes (g : Grammar) (uni : String → Char → Bool) (input : String) (fuel : Nat) :
    Option (List TreeNode) :=
  match parse g uni input fuel with
  | some (.ok a) => some a.nodes
  | _ => none

/-! ### Specification-side definitions

These restate parts of the spec in its own words, for comparison with the
source-derived definitions above. -/

/-- The spec's effective-mark table, clause for clause from the claim: Attr if
either of d, m is Attr; otherwise Unmute when d is Mute and m is Unmute;
otherwise Mute when either is Mute; otherwise Unmute when either is Unmute;
otherwise Default. -/
def spec_effective_mark (d m : Mark) : Mark :=
  if d = .Attr ∨ m = .Attr then .Attr
  else if d = .Mute ∧ m = .Unmute then .Unmute
  else if d = .Mute ∨ m = .Mute then .Mute
  else if d = .Unmute ∨ m = .Unmute then .Unmute
  else .Default

/-- The spec's attribute value: the concatenation of the text of all `Text`
descendants of the attribute node, each with `"` escaped to `&quot;`. -/
def spec_attr_value (a : TreeArena) (attrNid : Nat) : String :=
  String.join ((a.descendants attrNid).filterMap
    (fun d =>
      match a.contentAt d with
      | .Text txt => some (replaceQuote txt)
      | _ => none))

/-- First-appearance order of a sequence of names, appended to an existing
order: each name is recorded exactly when it first appears. -/
def introduceAll (order : List String) (names : List String) : List String :=
  names.foldl (fun o n => if n ∈ o then o else o ++ [n]) order

/-! ### Invariants of the recognizer state

These predicates are provable for every reachable state of the loop and are
the backbone of the claims about the recognizer and the tree
reconstruction. -/

/-- A `MatchRec` mirrors the factor it was crossed for: a terminal factor
yields a `Term` record with the factor's tmark; a nonterminal factor yields a
`NonTerm` record carrying the factor's (call-site) name and mark. -/
def recMirrors : Factor → MatchRec → Prop
  | .Terminal tm _, .Term _ _ tm' => tm' = tm
  | .Nonterm m n, .NonTerm n' _ m' => n' = n ∧ m' = m
  | _, _ => False

/-- The crossed records of a task line up, factor for factor, with the prefix
of its rule before the dot. -/
def MirrorOk (t : Task) : Prop :=
  t.dot.matched_so_far.length ≤ t.dot.iteratee.factors.length ∧
    List.Forall₂ recMirrors
      (t.dot.iteratee.factors.take t.dot.matched_so_far.length)
      t.dot.matched_so_far

/-- The position chain of a task: origin followed by the end positions of the
crossed records. -/
def Task.posList (t : Task) : List Nat :=
  t.origin :: t.dot.matched_so_far.map MatchRec.pos

/-- Positions are monotone along the crossed records and the task's `pos` is
the end position of the last one (or the origin when none). -/
def PosOk (t : Task) : Prop :=
  List.Chain' (· ≤ ·) t.posList ∧ t.posList.getLast? = some t.pos

/-- A nonterminal child crossed by a task: name, start (cursor) position, end
position, and the recorded mark. -/
structure NTChild where
  name : String
  cursor : Nat
  pos : Nat
  mark : Mark
deriving DecidableEq, Repr

/-- The nonterminal children of a record list, starting from cursor `c`. -/
def ntChildrenAux : Nat → List MatchRec → List NTChild
  | _, [] => []
  | _, (.Term _ p _) :: rest => ntChildrenAux p rest
  | c, (.NonTerm n p m) :: rest => ⟨n, c, p, m⟩ :: ntChildrenAux p rest

/-- The nonterminal children of a task. -/
def Task.ntChildren (t : Task) : List NTChild :=
  ntChildrenAux t.origin t.dot.matched_so_far

/-- A task has the given completed-item signature. -/
def sigIs (t : Task) (n : String) (o p : Nat) : Prop :=
  t.name = n ∧ t.origin = o ∧ t.pos = p

/-- All rules (alternatives) appearing in the grammar's definitions. -/
def grammarRules (g : Grammar) : List Rule :=
  g.definitions.flatMap (fun pr => pr.2.alts)

/-- All terminal character classes appearing in the grammar. -/
def grammarLits (g : Grammar) : List Lit :=
  (grammarRules g).flatMap
    (fun r => r.factors.filterMap (fun f =>
      match f with
      | .Terminal _ l => some l
      | .Nonterm _ _ => none))

/-- No character class of the grammar accepts the EOF sentinel `'\x1f'`. -/
def LitsReject (g : Grammar) (uni : String → Char → Bool) : Prop :=
  ∀ l ∈ grammarLits g, l.accept uni eofChar = false

/-- All positions mentioned by a task are bounded by the input length. -/
def BoundOk (len : Nat) (t : Task) : Prop :=
  t.origin ≤ len ∧ t.pos ≤ len ∧ ∀ r ∈ t.dot.matched_so_far, r.pos ≤ len

/-- The completed trace contains an item with the given signature. -/
def CompletedHas (tasks : List Task) (completed : List Nat) (n : String) (o p : Nat) : Prop :=
  ∃ tid ∈ completed, sigIs (tasks.getD tid default) n o p

/-- The task registered at index `i` of the completed trace. -/
def completedTaskAt (tasks : List Task) (completed : List Nat) (i : Nat) : Task :=
  tasks.getD (completed.getD i 0) default

/-- The cursor position after crossing a list of records, starting at `c`
(the end position of the last record, or `c` when there is none). -/
def lastCursor : Nat → List MatchRec → Nat
  | c, [] => c
  | _, r :: rest => lastCursor r.pos rest

/-- The index of the first list element satisfying `p` (the list's length when
there is none); the termination measure of the tree-reconstruction walk. -/
def findRank (p : Task → Bool) : List Task → Nat
  | [] => 0
  | t :: rest => if p t then 0 else findRank p rest + 1

/-- The index in the completed trace of the first item with the given
signature: the rank of a `walk` call. -/
def walkRank (tasks : List Task) (completed : List Nat)
    (name : String) (origin pos : Nat) : Nat :=
  findRank (fun t => t.name == name && t.origin == origin && t.pos == pos)
    (completed.map (fun tid => tasks.getD tid default))

/-- Invariant tying a trace arena to a completed trace, preserved by every
loop iteration:

* queue, completed-trace and continuation ids index into the arena;
* every continuation registered under a name points at a task whose
  next-after-dot factor is a `Nonterm` with exactly that name;
* the `Display` renderings of the stored tasks are pairwise distinct, and
  the hash set holds exactly those renderings;
* every stored task has monotone record positions ending at its `pos`,
  records mirroring its rule's factors, and a rule drawn from the grammar;
* every nonterminal child crossed by a stored task has a matching item in
  the completed trace, and for items *in* the completed trace that matching
  item occurs strictly earlier in the trace. -/
structure TAInv (g : Grammar) (completed : List Nat) (ta : TraceArena) : Prop where
  queue_lt : ∀ tid ∈ ta.queue, tid < ta.arena.length
  completed_lt : ∀ tid ∈ completed, tid < ta.arena.length
  cont_lt : ∀ pr ∈ ta.continuations, pr.2 < ta.arena.length
  cont_next : ∀ pr ∈ ta.continuations,
    ∃ m, (ta.getTask pr.2).dot.next_unparsed = some (.Nonterm m pr.1)
  sig_nodup : (ta.arena.map Task.sigString).Nodup
  hash_iff : ∀ h, h ∈ ta.hashes ↔ ∃ t ∈ ta.arena, t.sigString = h
  pos_ok : ∀ t ∈ ta.arena, PosOk t
  mirror : ∀ t ∈ ta.arena, MirrorOk t
  prov : ∀ t ∈ ta.arena, t.dot.iteratee ∈ grammarRules g
  child_done : ∀ t ∈ ta.arena, ∀ ch ∈ t.ntChildren,
    CompletedHas ta.arena completed ch.name ch.cursor ch.pos
  trace_order : ∀ i, i < completed.length →
    ∀ ch ∈ (completedTaskAt ta.arena completed i).ntChildren,
      ∃ j, j < i ∧
        sigIs (completedTaskAt ta.arena completed j) ch.name ch.cursor ch.pos

/-- The state invariant of the recognizer loop. -/
def StInv (g : Grammar) (st : PState) : Prop :=
  TAInv g st.completed st.traces

/-- All stored tasks respect the input bound. -/
def StBound (len : Nat) (st : PState) : Prop :=
  ∀ t ∈ st.traces.arena, BoundOk len t

/-! ### Concrete grammars and inputs used by the counterexamples and
witnesses -/

/-- The opaque Unicode predicate instantiated to "never matches" (no grammar
below uses Unicode classes). -/
def uniNone : String → Char → Bool := fun _ _ => false

/-- A literal matching exactly one character. -/
def litCh (c : Char) : Lit := ⟨[.Exact c], false⟩

/-- `doc = "a", "b".` -/
def gAB : Grammar :=
  ⟨[("doc", ⟨.Default, [⟨[.Terminal .Default (litCh 'a'), .Terminal .Default (litCh 'b')]⟩], false⟩)],
   ["doc"]⟩

/-- `doc = a.  -a = "x".` — call-site mark Default, definition mark Mute, so
the child items run with effective mark Mute. -/
def gC2 : Grammar :=
  ⟨[("doc", ⟨.Default, [⟨[.Nonterm .Default "a"]⟩], false⟩),
    ("a", ⟨.Mute, [⟨[.Terminal .Default (litCh 'x')]⟩], false⟩)],
   ["doc", "a"]⟩

/-- `doc = ~["a"].` — an exclusion character class, which accepts the EOF
sentinel. -/
def gC4 : Grammar :=
  ⟨[("doc", ⟨.Default, [⟨[.Terminal .Default ⟨[.Exact 'a'], true⟩]⟩], false⟩)],
   ["doc"]⟩

/-- A grammar with a rule whose name starts with `-` but whose definition
mark is Default: `doc = -x.  "-x" = "a".` (hand-built; `define` places no
constraint on names). -/
def gC5 : Grammar :=
  ⟨[("doc", ⟨.Default, [⟨[.Nonterm .Default "-x"]⟩], false⟩),
    ("-x", ⟨.Default, [⟨[.Terminal .Default (litCh 'a')]⟩], false⟩)],
   ["doc", "-x"]⟩

/-- `mark_define` calls folded over a grammar, in order. -/
def applyCalls (g : Grammar) (calls : List (Mark × String × SB)) : Grammar :=
  calls.foldl (fun g2 c => g2.mark_define c.1 c.2.1 c.2.2) g

/-- The stream of elementary `addAlt` operations one `mark_define` call
performs: the main rule first, then every synthesized alternative (with mark
`Mute`), in insertion order. -/
def defineStream (m : Mark) (name : String) (sb : SB) : List (Mark × String × List Factor) :=
  (m, name, sb.factors) ::
    sb.defn_order.flatMap
      (fun sn => ((alFind? sb.syn_rules sn).getD []).map (fun b => (Mark.Mute, sn, b.factors)))

/-- The stream of elementary `addAlt` operations of a whole call sequence. -/
def callStream (calls : List (Mark × String × SB)) : List (Mark × String × List Factor) :=
  calls.flatMap (fun c => defineStream c.1 c.2.1 c.2.2)

/-- Fold elementary `addAlt` operations over a grammar. -/
def foldAddAlts (g : Grammar) (stream : List (Mark × String × List Factor)) : Grammar :=
  stream.foldl (fun g2 tr => g2.addAlt tr.1 tr.2.1 ⟨tr.2.2⟩) g

/-- What the definition of `name` looks like after a stream of `addAlt`
operations targeting it: existing alternatives (and mark) are kept, each
operation appends one alternative, and the first operation to introduce the
name fixes the mark (later marks are ignored). -/
def combineStream (prev : Option BranchingRule) (l : List (Mark × String × List Factor)) :
    Option BranchingRule :=
  match prev, l with
  | some br, l => some ⟨br.mark, br.alts ++ l.map (fun tr => ⟨tr.2.2⟩), br.is_internal⟩
  | none, [] => none
  | none, (m, _, _) :: _ => some ⟨m, l.map (fun tr => ⟨tr.2.2⟩), false⟩

/-- Grammars whose definition map and `defn_order` list the same names. -/
def GSync (g : Grammar) : Prop :=
  ∀ n, (g.getDefinition? n).isSome ↔ n ∈ g.defn_order

set_option maxRecDepth 8000

/-! ## Theorems -/

/-! ### Association-list and `addAlt` lemmas -/

theorem alFind?_insertReplace_self {α : Type} (l : List (String × α)) (k : String) (v : α) :
    alFind? (alInsertReplace l k v) k = some v := by
  induction l with
  | nil => simp [alFind?, alInsertReplace]
  | cons p rest ih =>
    by_cases h : p.1 = k
    · simp [alFind?, alInsertReplace, h]
    · simp [alFind?, alInsertReplace, h, ih]

theorem alFind?_insertReplace_other {α : Type} (l : List (String × α)) (k k' : String)
    (v : α) (hne : k' ≠ k) : alFind? (alInsertReplace l k v) k' = alFind? l k' := by
  induction l with
  | nil => simp [alFind?, alInsertReplace, Ne.symm hne]
  | cons p rest ih =>
    by_cases h : p.1 = k
    · simp [alFind?, alInsertReplace, h, Ne.symm hne]
    · simp [alFind?, alInsertReplace, h, ih]

theorem alFind?_appendAt_self {α : Type} (l : List (String × List α)) (k : String) (v : α) :
    alFind? (alAppendAt l k v) k = some ((alFind? l k).getD [] ++ [v]) := by
  induction l with
  | nil => simp [alFind?, alAppendAt]
  | cons p rest ih =>
    by_cases h : p.1 = k
    · simp [alFind?, alAppendAt, h]
    · simp [alFind?, alAppendAt, h, ih]

theorem alFind?_appendAt_other {α : Type} (l : List (String × List α)) (k k' : String)
    (v : α) (hne : k' ≠ k) : alFind? (alAppendAt l k v) k' = alFind? l k' := by
  induction l with
  | nil => simp [alFind?, alAppendAt, Ne.symm hne]
  | cons p rest ih =>
    by_cases h : p.1 = k
    · simp [alFind?, alAppendAt, h, Ne.symm hne]
    · simp [alFind?, alAppendAt, h, ih]

theorem alFind?_remove_other {α : Type} (l : List (String × α)) (k k' : String)
    (hne : k' ≠ k) : alFind? (alRemove l k) k' = alFind? l k' := by
  induction l with
  | nil => simp [alRemove]
  | cons p rest ih =>
    by_cases h : p.1 = k
    · simp [alFind?, alRemove, h, Ne.symm hne]
    · simp [alFind?, alRemove, h, ih]


/-- C3: for every call-site mark m and definition mark d, the effective mark
the predictor assigns to child items equals the spec's table (Attr absorbs;
Unmute at the call site overrides a Mute definition; otherwise Mute
dominates non-Attr; otherwise Unmute; otherwise Default). -/
theorem effective_mark_matches_spec_table :
    ∀ d m : Mark, effective_mark d m = spec_effective_mark d m := by
  intro d m
  cases d <;> cases m <;> rfl

/-- C1, counterexample: on `doc = "a", "b".` with input `"b"`, recognition
produces no completed item `(doc, 0, 1)`, yet `parse` returns `Ok` with a
bare `Root` tree instead of a `ParseError` — no "no complete parse" dynamic
error exists in the code, and the (partial) tree is handed to the caller. -/
theorem parse_ok_without_complete_root :
    filter_completed_trace (arenaAfter gAB uniNone "b" 20)
        (completedAfter gAB uniNone "b" 20) "doc" 0 (String.length "b") = none ∧
    parseNodes gAB uniNone "b" 20 = some [⟨none, .Root⟩] := by
  exact ⟨by decide, by decide⟩

/-- C2, counterexample: on `doc = a.  -a = "x".` with input `"x"`, the
completed child item for `a` has effective mark `Mute`, but the record the
completer appends to the continuation is `NonTerm("a", 1, Default)` — the
call-site mark of the `Nonterm` factor, not the child's effective mark; no
record `NonTerm("a", 1, Mute)` is ever created. -/
theorem completer_stores_callsite_mark :
    ((arenaAfter gC2 uniNone "x" 30).getD 2 default).name = "a" ∧
    ((arenaAfter gC2 uniNone "x" 30).getD 2 default).mark = Mark.Mute ∧
    ((arenaAfter gC2 uniNone "x" 30).getD 2 default).dot.is_completed = true ∧
    ((arenaAfter gC2 uniNone "x" 30).getD 3 default).dot.matched_so_far
      = [.NonTerm "a" 1 .Default] ∧
    ∀ u ∈ arenaAfter gC2 uniNone "x" 30,
      (MatchRec.NonTerm "a" 1 .Mute) ∉ u.dot.matched_so_far := by
  refine ⟨by decide, by decide, by decide, by decide, by decide⟩

/-- C4, counterexample: on `doc = ~["a"].` with the empty input, the scanner
runs at position 0 = end of input, feeds the EOF sentinel `'\x1f'` to the
exclusion matcher — which accepts it — and creates the record
`Term('\x1f', 1, Default)` whose end position 1 exceeds the input length 0:
the branch does not die. -/
theorem scanner_accepts_past_eof :
    String.length "" = 0 ∧
    ((arenaAfter gC4 uniNone "" 20).getD 1 default).dot.matched_so_far
      = [.Term eofChar 1 .Default] ∧
    ((arenaAfter gC4 uniNone "" 20).getD 1 default).pos = 1 := by
  refine ⟨rfl, by decide, by decide⟩

/-- C5, counterexample: on `doc = -x.  "-x" = "a".` with input `"a"`, the
completed rule `-x` has effective mark Default, yet the output tree contains
no `Element "-x"` node: the reconstruction also skips every completed rule
whose *name* starts with `-`, attaching its children to the parent. -/
theorem dash_named_rule_produces_no_element :
    ((arenaAfter gC5 uniNone "a" 30).getD 2 default).name = "-x" ∧
    ((arenaAfter gC5 uniNone "a" 30).getD 2 default).mark = Mark.Default ∧
    ((arenaAfter gC5 uniNone "a" 30).getD 2 default).dot.is_completed = true ∧
    (2 : Nat) ∈ completedAfter gC5 uniNone "a" 30 ∧
    parseNodes gC5 uniNone "a" 30
      = some [⟨none, .Root⟩, ⟨some 0, .Element "doc"⟩, ⟨some 1, .Text "a"⟩] := by
  refine ⟨by decide, by decide, by decide, by decide, by decide⟩

theorem alFind?_append_missing {α : Type} (l : List (String × α)) (k : String) (v : α)
    (h : alFind? l k = none) : alFind? (l ++ [(k, v)]) k = some v := by
  induction l with
  | nil => simp [alFind?]
  | cons p rest ih =>
    by_cases hp : p.1 = k
    · simp [alFind?, hp] at h
    · simp only [alFind?, hp, if_neg] at h
      simpa [alFind?, hp] using ih h

theorem alFind?_append_sing_other {α : Type} (l : List (String × α)) (k k' : String)
    (v : α) (hne : k' ≠ k) : alFind? (l ++ [(k, v)]) k' = alFind? l k' := by
  induction l with
  | nil => simp [alFind?, Ne.symm hne]
  | cons p rest ih =>
    by_cases hp : p.1 = k'
    · simp [alFind?, hp]
    · simpa [alFind?, hp] using ih

theorem getDefinition?_addAlt_self (g : Grammar) (m : Mark) (name : String) (r : Rule) :
    (g.addAlt m name r).getDefinition? name =
      some (match g.getDefinition? name with
            | some br => ⟨br.mark, br.alts ++ [r], br.is_internal⟩
            | none => ⟨m, [r], false⟩) := by
  unfold Grammar.addAlt Grammar.getDefinition?
  cases h : alFind? g.definitions name with
  | some br => simp [h, alFind?_insertReplace_self]
  | none => simp [h, alFind?_append_missing _ _ _ h]

theorem getDefinition?_addAlt_other (g : Grammar) (m : Mark) (name name' : String) (r : Rule)
    (hne : name' ≠ name) :
    (g.addAlt m name r).getDefinition? name' = g.getDefinition? name' := by
  unfold Grammar.addAlt Grammar.getDefinition?
  cases h : alFind? g.definitions name with
  | some br => simp [h, alFind?_insertReplace_other _ _ _ _ hne]
  | none => simp [h, alFind?_append_sing_other _ _ _ _ hne]

theorem addAlt_order (g : Grammar) (m : Mark) (name : String) (r : Rule) :
    (g.addAlt m name r).defn_order =
      if (g.getDefinition? name).isSome then g.defn_order else g.defn_order ++ [name] := by
  unfold Grammar.addAlt Grammar.getDefinition?
  cases h : alFind? g.definitions name <;> simp [h]

theorem GSync_addAlt (g : Grammar) (m : Mark) (name : String) (r : Rule)
    (hg : GSync g) : GSync (g.addAlt m name r) := by
  intro n
  by_cases hn : n = name
  · subst hn
    rw [getDefinition?_addAlt_self, addAlt_order]
    by_cases h : (g.getDefinition? n).isSome
    · simp [h, (hg n).mp h]
    · simp [h]
  · rw [getDefinition?_addAlt_other _ _ _ _ _ hn, addAlt_order]
    by_cases h : (g.getDefinition? name).isSome
    · simp [h, hg n]
    · simp [h, hg n, hn]

theorem foldl_flatMap' {α β γ : Type} (f : γ → β → γ) (h : α → List β) (l : List α)
    (init : γ) :
    (l.flatMap h).foldl f init = l.foldl (fun acc a => (h a).foldl f acc) init := by
  induction l generalizing init with
  | nil => rfl
  | cons a rest ih => simp [List.foldl_append, ih]

theorem foldAddAlts_append (g : Grammar) (s1 s2 : List (Mark × String × List Factor)) :
    foldAddAlts g (s1 ++ s2) = foldAddAlts (foldAddAlts g s1) s2 := by
  simp [foldAddAlts, List.foldl_append]

theorem mark_define_eq_stream (g : Grammar) (m : Mark) (name : String) (sb : SB) :
    g.mark_define m name sb = foldAddAlts g (defineStream m name sb) := by
  unfold Grammar.mark_define foldAddAlts defineStream
  rw [List.foldl_cons, foldl_flatMap']
  simp [List.foldl_map]

theorem applyCalls_eq_stream (calls : List (Mark × String × SB)) :
    ∀ g, applyCalls g calls = foldAddAlts g (callStream calls) := by
  induction calls with
  | nil => intro g; rfl
  | cons c rest ih =>
    intro g
    have h1 : applyCalls g (c :: rest) = applyCalls (g.mark_define c.1 c.2.1 c.2.2) rest := rfl
    rw [h1, ih, mark_define_eq_stream]
    rw [show callStream (c :: rest) = defineStream c.1 c.2.1 c.2.2 ++ callStream rest from rfl,
      foldAddAlts_append]

theorem introduceAll_cons (o : List String) (n : String) (ns : List String) :
    introduceAll o (n :: ns) = introduceAll (if n ∈ o then o else o ++ [n]) ns := rfl

theorem foldAddAlts_spec (stream : List (Mark × String × List Factor)) :
    ∀ g : Grammar, GSync g →
      GSync (foldAddAlts g stream) ∧
      (foldAddAlts g stream).defn_order
        = introduceAll g.defn_order (stream.map (fun tr => tr.2.1)) ∧
      ∀ name, (foldAddAlts g stream).getDefinition? name
        = combineStream (g.getDefinition? name) (stream.filter (fun tr => tr.2.1 == name)) := by
  induction stream with
  | nil =>
    intro g hg
    refine ⟨hg, rfl, ?_⟩
    intro name
    cases h : g.getDefinition? name <;> simp [foldAddAlts, combineStream, h]
  | cons tr rest ih =>
    intro g hg
    have hstep : foldAddAlts g (tr :: rest) = foldAddAlts (g.addAlt tr.1 tr.2.1 ⟨tr.2.2⟩) rest := rfl
    obtain ⟨ihSync, ihOrder, ihLook⟩ := ih (g.addAlt tr.1 tr.2.1 ⟨tr.2.2⟩) (GSync_addAlt g _ _ _ hg)
    refine ⟨by rw [hstep]; exact ihSync, ?_, ?_⟩
    · rw [hstep, ihOrder, List.map_cons, introduceAll_cons, addAlt_order]
      by_cases h : (g.getDefinition? tr.2.1).isSome
      · simp [h, (hg tr.2.1).mp h]
      · have : tr.2.1 ∉ g.defn_order := fun hm => h ((hg tr.2.1).mpr hm)
        simp [h, this]
    · intro name
      rw [hstep, ihLook name]
      by_cases hn : tr.2.1 = name
      · subst hn
        rw [getDefinition?_addAlt_self]
        cases h : g.getDefinition? tr.2.1 with
        | some br => simp [combineStream, List.filter_cons, h]
        | none => simp [combineStream, List.filter_cons, h]
      · rw [getDefinition?_addAlt_other _ _ _ _ _ (Ne.symm hn)]
        have : (tr.2.1 == name) = false := by simp [hn]
        cases h : g.getDefinition? name <;>
          simp [combineStream, List.filter_cons, this, h]

theorem GSync_empty : GSync Grammar.empty := by
  intro n
  simp [Grammar.empty, Grammar.getDefinition?, alFind?]

/-- C8: for every sequence of define/mark_define calls on a grammar, viewed
as its stream of elementary alternative-insertions (main rule first, then
synthesized rules in insertion order): repeated calls on the same name
append their rules as additional alternatives in call order; the mark is
fixed by the first insertion for a name and later marks are ignored; each
name (synthesized ones included) is appended to `defn_order` exactly when it
first appears; and `Display` serialization emits the definitions in exactly
that order. -/
theorem define_accumulates_and_orders (calls : List (Mark × String × SB)) :
    (∀ name, (applyCalls Grammar.empty calls).getDefinition? name
        = combineStream none ((callStream calls).filter (fun tr => tr.2.1 == name))) ∧
    (applyCalls Grammar.empty calls).defn_order
        = introduceAll [] ((callStream calls).map (fun tr => tr.2.1)) ∧
    (applyCalls Grammar.empty calls).displayStr
        = String.join ((introduceAll [] ((callStream calls).map (fun tr => tr.2.1))).map
            (applyCalls Grammar.empty calls).defnLine) := by
  obtain ⟨_, hOrder, hLook⟩ := foldAddAlts_spec (callStream calls) Grammar.empty GSync_empty
  rw [applyCalls_eq_stream]
  refine ⟨fun name => ?_, hOrder, ?_⟩
  · rw [hLook name]; rfl
  · rw [Grammar.displayStr, hOrder]; rfl

theorem siphonGo_factors (names : List String) :
    ∀ (m : List (String × List SB)) (acc : SB),
      (siphonGo names m acc).1.factors = acc.factors := by
  induction names with
  | nil => intro m acc; rfl
  | cons n rest ih =>
    intro m acc
    unfold siphonGo
    cases h : alFind? m n with
    | some rules => simp only [h]; rw [ih]; rfl
    | none => simp only [h]; rw [ih]

theorem siphonGo_order (names : List String) :
    ∀ (m : List (String × List SB)) (acc : SB),
      names.Nodup → (∀ n ∈ names, (alFind? m n).isSome) →
      (siphonGo names m acc).1.defn_order = acc.defn_order ++ names := by
  induction names with
  | nil => intro m acc _ _; simp [siphonGo]
  | cons n rest ih =>
    intro m acc hnd hfound
    obtain ⟨hn, hrest⟩ := List.nodup_cons.mp hnd
    obtain ⟨rules, hr⟩ := Option.isSome_iff_exists.mp (hfound n (List.mem_cons_self n rest))
    unfold siphonGo
    rw [hr]
    have hfound' : ∀ n' ∈ rest, (alFind? (alRemove m n) n').isSome := by
      intro n' hn'
      have hne' : n' ≠ n := fun he => hn (he ▸ hn')
      rw [alFind?_remove_other _ _ _ hne']
      exact hfound n' (List.mem_cons_of_mem _ hn')
    rw [ih (alRemove m n) _ hrest hfound']
    simp [SB.defn_order]

theorem siphonGo_find_stable (names : List String) :
    ∀ (m : List (String × List SB)) (acc : SB) (N : String), N ∉ names →
      alFind? (siphonGo names m acc).1.syn_rules N = alFind? acc.syn_rules N := by
  induction names with
  | nil => intro m acc N _; rfl
  | cons n rest ih =>
    intro m acc N hN
    have hne : N ≠ n := fun he => hN (he ▸ List.mem_cons_self n rest)
    have hrest : N ∉ rest := fun hm => hN (List.mem_cons_of_mem _ hm)
    unfold siphonGo
    cases h : alFind? m n with
    | some rules =>
      rw [ih _ _ _ hrest]
      simp [SB.syn_rules, alFind?_insertReplace_other _ _ _ _ hne]
    | none => rw [ih _ _ _ hrest]

theorem filter_flatMap' {α β : Type} (p : β → Bool) (h : α → List β) (l : List α) :
    (l.flatMap h).filter p = l.flatMap (fun a => (h a).filter p) := by
  induction l with
  | nil => rfl
  | cons a rest ih => simp [List.filter_append, ih]

theorem flatMap_nil_of_forall {α β : Type} (f : α → List β) (l : List α)
    (h : ∀ a ∈ l, f a = []) : l.flatMap f = [] := by
  induction l with
  | nil => rfl
  | cons a rest ih =>
    simp only [List.flatMap_cons, h a (List.mem_cons_self a rest),
      List.nil_append]
    exact ih (fun a' ha' => h a' (List.mem_cons_of_mem _ ha'))

@[simp] theorem SB.factors_mk (f : List Factor) (sr : List (String × List SB))
    (o : List String) : (SB.mk f sr o).factors = f := rfl

@[simp] theorem SB.syn_rules_mk (f : List Factor) (sr : List (String × List SB))
    (o : List String) : (SB.mk f sr o).syn_rules = sr := rfl

@[simp] theorem SB.defn_order_mk (f : List Factor) (sr : List (String × List SB))
    (o : List String) : (SB.mk f sr o).defn_order = o := rfl

theorem siphon_eq (s sub : SB) :
    s.siphon sub = ((siphonGo sub.defn_order sub.syn_rules s).1,
      SB.mk sub.factors (siphonGo sub.defn_order sub.syn_rules s).2 []) := rfl

theorem mark_nt_eq (s : SB) (name : String) (mark : Mark) :
    s.mark_nt name mark = SB.mk (s.factors ++ [.Nonterm mark name]) s.syn_rules s.defn_order := rfl

theorem syn_rule_eq (s rb : SB) (name : String) (hplain : rb.defn_order = []) :
    s.syn_rule name rb
      = SB.mk s.factors (alAppendAt s.syn_rules name (SB.mk rb.factors rb.syn_rules []))
          (if s.defn_order.contains name then s.defn_order else s.defn_order ++ [name]) := by
  unfold SB.syn_rule SB.siphon
  rw [hplain]
  rfl

theorem opt_eq (rulename : String) (cnt : Nat) (self sub : SB) :
    SB.opt rulename cnt self sub
      = ((((self.siphon sub).1.syn_rule (mint_internal_id rulename "f-option" cnt)
              SB.empty).syn_rule
            (mint_internal_id rulename "f-option" cnt) (self.siphon sub).2).mark_nt
          (mint_internal_id rulename "f-option" cnt) .Mute, cnt + 1) := rfl

/-- C9: `opt(F)` first siphons F's synthesized rules in their insertion
order, then registers one new synthesized rule `N` named
`--<ruleName>.<hint><n>` with hint `f-option` and `n` taken from the
per-rule context counter (which advances by one, so the name is determined
by the build sequence), carrying exactly two alternatives — the empty
sequence and F's factors — merged into a grammar with definition mark
`Mute`, and appends the factor `Nonterminal(Mute, N)` to the sequence under
construction. -/
theorem opt_registers_synth_rule
    (rulename : String) (cnt : Nat) (self sub : SB) (N : String)
    (hNdef : N = mint_internal_id rulename "f-option" cnt)
    (hnd : sub.defn_order.Nodup)
    (hfound : ∀ n ∈ sub.defn_order, (alFind? sub.syn_rules n).isSome)
    (hN1 : N ∉ self.defn_order)
    (hN2 : N ∉ sub.defn_order)
    (hN3 : alFind? self.syn_rules N = none) :
    (SB.opt rulename cnt self sub).2 = cnt + 1 ∧
    N = "--" ++ rulename ++ "." ++ "f-option" ++ toString cnt ∧
    (SB.opt rulename cnt self sub).1.factors = self.factors ++ [Factor.Nonterm .Mute N] ∧
    (SB.opt rulename cnt self sub).1.defn_order
      = (self.defn_order ++ sub.defn_order) ++ [N] ∧
    ((alFind? (SB.opt rulename cnt self sub).1.syn_rules N).getD []).map SB.factors
      = [[], sub.factors] ∧
    ∀ (dm : Mark) (rn : String), rn ≠ N →
      (Grammar.empty.mark_define dm rn (SB.opt rulename cnt self sub).1).getDefinition? N
        = some ⟨.Mute, [⟨[]⟩, ⟨sub.factors⟩], false⟩ := by
  subst hNdef
  set N := mint_internal_id rulename "f-option" cnt with hN
  -- components of the siphoned builder
  have hAfac : (self.siphon sub).1.factors = self.factors := by
    rw [siphon_eq]; exact siphonGo_factors _ _ _
  have hAord : (self.siphon sub).1.defn_order = self.defn_order ++ sub.defn_order := by
    rw [siphon_eq]; exact siphonGo_order _ _ _ hnd hfound
  have hAfind : alFind? (self.siphon sub).1.syn_rules N = none := by
    rw [siphon_eq]
    show alFind? (siphonGo sub.defn_order sub.syn_rules self).1.syn_rules N = none
    rw [siphonGo_find_stable _ _ _ _ hN2]; exact hN3
  have hBfac : (self.siphon sub).2.factors = sub.factors := by rw [siphon_eq]; rfl
  have hBord : (self.siphon sub).2.defn_order = [] := by rw [siphon_eq]; rfl
  -- s2 = s1.syn_rule N empty
  have hNmemA : N ∉ (self.siphon sub).1.defn_order := by
    rw [hAord]; simp only [List.mem_append]; rintro (h | h)
    · exact hN1 h
    · exact hN2 h
  have hcontA : (self.siphon sub).1.defn_order.contains N = false := by
    simpa using hNmemA
  have hs2 : (self.siphon sub).1.syn_rule N SB.empty
      = SB.mk (self.siphon sub).1.factors
          (alAppendAt (self.siphon sub).1.syn_rules N (SB.mk [] [] []))
          ((self.siphon sub).1.defn_order ++ [N]) := by
    rw [syn_rule_eq _ _ _ (by rfl), hcontA]
    rfl
  -- s3 = s2.syn_rule N subD
  have hcont2 : ((self.siphon sub).1.defn_order ++ [N]).contains N = true := by
    simp
  have hs3 : ((self.siphon sub).1.syn_rule N SB.empty).syn_rule N (self.siphon sub).2
      = SB.mk (self.siphon sub).1.factors
          (alAppendAt (alAppendAt (self.siphon sub).1.syn_rules N (SB.mk [] [] [])) N
            (SB.mk (self.siphon sub).2.factors (self.siphon sub).2.syn_rules []))
          ((self.siphon sub).1.defn_order ++ [N]) := by
    rw [syn_rule_eq _ _ _ hBord, hs2]
    simp [hcont2]
  -- the builders registered under N
  have hfind3 : alFind?
      (alAppendAt (alAppendAt (self.siphon sub).1.syn_rules N (SB.mk [] [] [])) N
        (SB.mk sub.factors (self.siphon sub).2.syn_rules [])) N
      = some [SB.mk [] [] [],
          SB.mk sub.factors (self.siphon sub).2.syn_rules []] := by
    rw [alFind?_appendAt_self, alFind?_appendAt_self, hAfind]
    rfl
  refine ⟨rfl, rfl, ?_, ?_, ?_, ?_⟩
  · rw [opt_eq, mark_nt_eq]
    simp only [hs3, SB.factors_mk, hAfac]
  · rw [opt_eq, mark_nt_eq]
    simp only [hs3, SB.defn_order_mk, hAord]
  · rw [opt_eq, mark_nt_eq]
    simp only [hs3, SB.syn_rules_mk, hBfac, hfind3, Option.getD_some, List.map_cons,
      SB.factors_mk, List.map_nil]
  · intro dm rn hrn
    rw [opt_eq, mark_define_eq_stream]
    obtain ⟨_, _, hLook⟩ := foldAddAlts_spec
      (defineStream dm rn ((((self.siphon sub).1.syn_rule N SB.empty).syn_rule N
        (self.siphon sub).2).mark_nt N .Mute)) Grammar.empty GSync_empty
    rw [hLook N]
    have hrnb : (rn == N) = false := by simpa using hrn
    rw [defineStream, List.filter_cons]
    simp only [hrnb, Bool.false_eq_true, if_false]
    rw [filter_flatMap', mark_nt_eq, hs3]
    simp only [SB.defn_order_mk, SB.syn_rules_mk, hBfac]
    rw [hAord, List.flatMap_append, List.flatMap_append]
    have hseggen : ∀ ns : List String, N ∉ ns → ns.flatMap
        (fun sn => (((alFind?
            (alAppendAt (alAppendAt (self.siphon sub).1.syn_rules N (SB.mk [] [] [])) N
              (SB.mk sub.factors (self.siphon sub).2.syn_rules [])) sn).getD
            []).map (fun b => (Mark.Mute, sn, b.factors))).filter
          (fun tr => tr.2.1 == N)) = [] := by
      intro ns hns
      apply flatMap_nil_of_forall
      intro sn hsn
      have hne : (sn == N) = false := by
        simp only [beq_eq_false_iff_ne, ne_eq]
        intro he; exact hns (he ▸ hsn)
      rw [List.filter_map]
      have : ((fun tr => tr.2.1 == N) ∘ fun b => (Mark.Mute, sn, SB.factors b))
          = fun _ => false := by
        funext b; simpa using hne
      rw [this]
      simp
    rw [hseggen self.defn_order hN1, hseggen sub.defn_order hN2]
    have hlast : ([N] : List String).flatMap
        (fun sn => (((alFind?
            (alAppendAt (alAppendAt (self.siphon sub).1.syn_rules N (SB.mk [] [] [])) N
              (SB.mk sub.factors (self.siphon sub).2.syn_rules [])) sn).getD
            []).map (fun b => (Mark.Mute, sn, b.factors))).filter
          (fun tr => tr.2.1 == N))
        = [(Mark.Mute, N, ([] : List Factor)), (Mark.Mute, N, sub.factors)] := by
      simp only [List.flatMap_cons, List.flatMap_nil, List.append_nil, hfind3,
        Option.getD_some]
      rw [List.filter_map]
      have : ((fun tr => tr.2.1 == N) ∘ fun b => (Mark.Mute, N, SB.factors b))
          = fun _ => true := by
        funext b; simp
      rw [this]
      simp
    rw [hlast]
    rfl

/-- Witness for C9 at a concrete build step: `opt` on builders for single
characters, in context `r` with counter 1. -/
theorem opt_registers_synth_rule_witness :
    (SB.opt "r" 1 (SB.empty.ch 'a') (SB.empty.ch 'b')).2 = 1 + 1 ∧
    (SB.opt "r" 1 (SB.empty.ch 'a') (SB.empty.ch 'b')).1.defn_order
      = ((SB.empty.ch 'a').defn_order ++ (SB.empty.ch 'b').defn_order)
        ++ [mint_internal_id "r" "f-option" 1] := by
  have h := opt_registers_synth_rule "r" 1 (SB.empty.ch 'a') (SB.empty.ch 'b')
    (mint_internal_id "r" "f-option" 1) rfl (by decide) (by decide) (by decide) (by decide)
    rfl
  exact ⟨h.1, h.2.2.2.1⟩

/-! ### Recognizer-state invariants: supporting lemmas -/

theorem getD_append_lt {α : Type} (l l' : List α) (d : α) (i : Nat) (h : i < l.length) :
    (l ++ l').getD i d = l.getD i d := by
  induction l generalizing i with
  | nil => simp at h
  | cons a rest ih =>
    cases i with
    | zero => rfl
    | succ n =>
      simp only [List.cons_append, List.getD_cons_succ]
      exact ih n (Nat.lt_of_succ_lt_succ h)

theorem getD_append_self {α : Type} (l : List α) (x : α) (d : α) :
    (l ++ [x]).getD l.length d = x := by
  induction l with
  | nil => rfl
  | cons a rest ih => simp [ih]

theorem lastCursor_getLast? (recs : List MatchRec) :
    ∀ c, (c :: recs.map MatchRec.pos).getLast? = some (lastCursor c recs) := by
  induction recs with
  | nil => intro c; rfl
  | cons r rest ih =>
    intro c
    rw [lastCursor, ← ih r.pos]
    simp

theorem lastCursor_of_PosOk (t : Task) (h : PosOk t) :
    lastCursor t.origin t.dot.matched_so_far = t.pos := by
  have h2 := h.2
  rw [Task.posList] at h2
  rw [lastCursor_getLast? t.dot.matched_so_far t.origin] at h2
  exact Option.some.inj h2

theorem ntChildrenAux_concat (recs : List MatchRec) :
    ∀ (c : Nat) (r : MatchRec),
      ntChildrenAux c (recs ++ [r]) =
        ntChildrenAux c recs ++ ntChildrenAux (lastCursor c recs) [r] := by
  induction recs with
  | nil => intro c r; simp [ntChildrenAux, lastCursor]
  | cons hd rest ih =>
    intro c r
    cases hd with
    | Term ch p tm => simp [ntChildrenAux, lastCursor, MatchRec.pos, ih]
    | NonTerm n p m => simp [ntChildrenAux, lastCursor, MatchRec.pos, ih]

/-- `PosOk` for a task advanced by one record whose position is at least the
source task's position. -/
theorem PosOk_advance (t : Task) (r : MatchRec) (id' : Nat)
    (h : PosOk t) (hge : t.pos ≤ r.pos) :
    PosOk ⟨id', t.name, t.mark, t.origin, r.pos, t.dot.advance_dot r⟩ := by
  obtain ⟨hchain, hlast⟩ := h
  constructor
  · show List.Chain' (· ≤ ·)
      (t.origin :: (t.dot.matched_so_far ++ [r]).map MatchRec.pos)
    simp only [List.map_append, List.map_cons, List.map_nil]
    rw [show t.origin :: (t.dot.matched_so_far.map MatchRec.pos ++ [r.pos])
        = (t.origin :: t.dot.matched_so_far.map MatchRec.pos) ++ [r.pos] from rfl]
    rw [List.chain'_append]
    refine ⟨hchain, List.chain'_singleton _, ?_⟩
    intro x hx y hy
    rw [Task.posList] at hlast
    rw [hlast] at hx
    simp only [Option.mem_def, Option.some.injEq] at hx
    simp only [List.head?_cons, Option.mem_def, Option.some.injEq] at hy
    subst hx; subst hy
    exact hge
  · show (t.origin :: (t.dot.matched_so_far ++ [r]).map MatchRec.pos).getLast? = some r.pos
    have heq : t.origin :: (t.dot.matched_so_far ++ [r]).map MatchRec.pos
        = (t.origin :: t.dot.matched_so_far.map MatchRec.pos) ++ [r.pos] := by simp
    rw [heq, List.getLast?_concat]

/-- `MirrorOk` for a task advanced by a record mirroring its next factor. -/
theorem MirrorOk_advance (t : Task) (f : Factor) (r : MatchRec) (id' p : Nat)
    (hm : MirrorOk t) (hnext : t.dot.next_unparsed = some f) (hr : recMirrors f r) :
    MirrorOk ⟨id', t.name, t.mark, t.origin, p, t.dot.advance_dot r⟩ := by
  obtain ⟨hlen, hfa⟩ := hm
  rw [Dotted.next_unparsed] at hnext
  obtain ⟨hlt, hget⟩ := List.get?_eq_some.mp hnext
  constructor
  · show (t.dot.matched_so_far ++ [r]).length ≤ t.dot.iteratee.factors.length
    simp only [List.length_append, List.length_cons, List.length_nil]
    omega
  · show List.Forall₂ recMirrors
      (t.dot.iteratee.factors.take (t.dot.matched_so_far ++ [r]).length)
      (t.dot.matched_so_far ++ [r])
    have hlen2 : (t.dot.matched_so_far ++ [r]).length = t.dot.matched_so_far.length + 1 := by
      simp
    have hge : t.dot.iteratee.factors[t.dot.matched_so_far.length]? = some f := by
      rw [← List.get?_eq_getElem?]
      exact hnext
    rw [hlen2, List.take_succ, hge]
    exact List.rel_append hfa (List.Forall₂.cons hr List.Forall₂.nil)

theorem getD_mem_of_lt {α : Type} (l : List α) (d : α) (i : Nat) (h : i < l.length) :
    l.getD i d ∈ l := by
  rw [List.getD_eq_getElem?_getD, List.getElem?_eq_getElem h]
  exact List.getElem_mem h

theorem trySave_none_eq (ta : TraceArena) (t : Task) (h : t.sigString ∈ ta.hashes) :
    ta.trySave t = (none, ta) := by
  unfold TraceArena.trySave
  rw [if_pos (by simpa using h)]

theorem trySave_some_eq (ta : TraceArena) (t : Task) (h : t.sigString ∉ ta.hashes) :
    ta.trySave t
      = (some t.id, ⟨ta.arena ++ [t], ta.queue, ta.continuations, t.sigString :: ta.hashes⟩) := by
  unfold TraceArena.trySave
  rw [if_neg (by simpa using h)]

theorem CompletedHas_append (tasks : List Task) (u : Task) (completed : List Nat)
    (n : String) (o p : Nat)
    (hlt : ∀ tid ∈ completed, tid < tasks.length)
    (h : CompletedHas tasks completed n o p) :
    CompletedHas (tasks ++ [u]) completed n o p := by
  obtain ⟨tid, htid, hsig⟩ := h
  exact ⟨tid, htid, by rw [getD_append_lt _ _ _ _ (hlt tid htid)]; exact hsig⟩

/-- Appending a fresh, well-formed task to the arena preserves the
invariant. -/
theorem TAInv_append (g : Grammar) (completed : List Nat) (ta : TraceArena) (t : Task)
    (hInv : TAInv g completed ta)
    (hpos : PosOk t) (hmir : MirrorOk t) (hprov : t.dot.iteratee ∈ grammarRules g)
    (hchild : ∀ ch ∈ t.ntChildren, CompletedHas ta.arena completed ch.name ch.cursor ch.pos)
    (hsig : t.sigString ∉ ta.hashes) :
    TAInv g completed ⟨ta.arena ++ [t], ta.queue, ta.continuations, t.sigString :: ta.hashes⟩ := by
  have hlen : (ta.arena ++ [t]).length = ta.arena.length + 1 := by simp
  have hstable : ∀ i, i < ta.arena.length →
      (ta.arena ++ [t]).getD i default = ta.arena.getD i default :=
    fun i hi => getD_append_lt _ _ _ _ hi
  refine ⟨?_, ?_, ?_, ?_, ?_, ?_, ?_, ?_, ?_, ?_, ?_⟩
  · intro tid htid
    show tid < (ta.arena ++ [t]).length
    rw [hlen]
    exact Nat.lt_succ_of_lt (hInv.queue_lt tid htid)
  · intro tid htid
    show tid < (ta.arena ++ [t]).length
    rw [hlen]
    exact Nat.lt_succ_of_lt (hInv.completed_lt tid htid)
  · intro pr hpr
    show pr.2 < (ta.arena ++ [t]).length
    rw [hlen]
    exact Nat.lt_succ_of_lt (hInv.cont_lt pr hpr)
  · intro pr hpr
    obtain ⟨m, hm⟩ := hInv.cont_next pr hpr
    refine ⟨m, ?_⟩
    show ((ta.arena ++ [t]).getD pr.2 default).dot.next_unparsed = some (.Nonterm m pr.1)
    rw [hstable pr.2 (hInv.cont_lt pr hpr)]
    exact hm
  · rw [List.map_append, List.map_cons, List.map_nil]
    rw [List.nodup_append]
    refine ⟨hInv.sig_nodup, List.nodup_singleton _, ?_⟩
    intro s hs
    simp only [List.mem_singleton]
    intro he
    subst he
    obtain ⟨t', ht', hsig'⟩ := List.mem_map.mp hs
    exact hsig ((hInv.hash_iff t.sigString).mpr ⟨t', ht', hsig'⟩)
  · intro h
    constructor
    · intro hm
      rcases List.mem_cons.mp hm with he | hm'
      · exact ⟨t, by simp, he.symm⟩
      · obtain ⟨t', ht', he'⟩ := (hInv.hash_iff h).mp hm'
        exact ⟨t', List.mem_append_left _ ht', he'⟩
    · rintro ⟨t', ht', he'⟩
      rcases List.mem_append.mp ht' with hl | hr
      · exact List.mem_cons_of_mem _ ((hInv.hash_iff h).mpr ⟨t', hl, he'⟩)
      · rw [List.mem_singleton] at hr
        subst hr
        rw [← he']
        exact List.mem_cons_self _ _
  · intro t' ht'
    rcases List.mem_append.mp ht' with hl | hr
    · exact hInv.pos_ok t' hl
    · rw [List.mem_singleton] at hr; subst hr; exact hpos
  · intro t' ht'
    rcases List.mem_append.mp ht' with hl | hr
    · exact hInv.mirror t' hl
    · rw [List.mem_singleton] at hr; subst hr; exact hmir
  · intro t' ht'
    rcases List.mem_append.mp ht' with hl | hr
    · exact hInv.prov t' hl
    · rw [List.mem_singleton] at hr; subst hr; exact hprov
  · intro t' ht' ch hch
    rcases List.mem_append.mp ht' with hl | hr
    · exact CompletedHas_append _ _ _ _ _ _ hInv.completed_lt
        (hInv.child_done t' hl ch hch)
    · rw [List.mem_singleton] at hr; subst hr
      exact CompletedHas_append _ _ _ _ _ _ hInv.completed_lt (hchild ch hch)
  · intro i hi ch hch
    have hmem : completed.getD i 0 ∈ completed := getD_mem_of_lt _ _ _ hi
    have hstab : completedTaskAt (ta.arena ++ [t]) completed i
        = completedTaskAt ta.arena completed i := by
      unfold completedTaskAt
      exact hstable _ (hInv.completed_lt _ hmem)
    rw [hstab] at hch
    obtain ⟨j, hj, hsigj⟩ := hInv.trace_order i hi ch hch
    refine ⟨j, hj, ?_⟩
    have hmemj : completed.getD j 0 ∈ completed := getD_mem_of_lt _ _ _ (by omega)
    unfold completedTaskAt
    rw [hstable _ (hInv.completed_lt _ hmemj)]
    exact hsigj

/-- Arena extension: the source arena is append-only. -/
def TAExt (ta ta' : TraceArena) : Prop :=
  ∃ suffix, ta'.arena = ta.arena ++ suffix

theorem TAExt.refl (ta : TraceArena) : TAExt ta ta := ⟨[], by simp⟩

theorem TAExt.len_le {ta ta' : TraceArena} (h : TAExt ta ta') :
    ta.arena.length ≤ ta'.arena.length := by
  obtain ⟨suffix, hs⟩ := h
  rw [hs]
  simp

theorem TAExt.getTask_stable {ta ta' : TraceArena} (h : TAExt ta ta') (i : Nat)
    (hi : i < ta.arena.length) : ta'.getTask i = ta.getTask i := by
  obtain ⟨suffix, hs⟩ := h
  unfold TraceArena.getTask
  rw [hs]
  exact getD_append_lt _ _ _ _ hi

theorem TAExt.trans' {ta ta' ta'' : TraceArena} (h : TAExt ta ta') (h' : TAExt ta' ta'') :
    TAExt ta ta'' := by
  obtain ⟨s1, hs1⟩ := h
  obtain ⟨s2, hs2⟩ := h'
  exact ⟨s1 ++ s2, by rw [hs2, hs1, List.append_assoc]⟩

/-- Replacing the queue with any list of valid ids preserves the invariant. -/
theorem TAInv_set_queue (g : Grammar) (completed : List Nat) (ta : TraceArena)
    (q' : List Nat) (hInv : TAInv g completed ta)
    (hq : ∀ tid ∈ q', tid < ta.arena.length) :
    TAInv g completed ⟨ta.arena, q', ta.continuations, ta.hashes⟩ :=
  ⟨hq, hInv.completed_lt, hInv.cont_lt, hInv.cont_next, hInv.sig_nodup, hInv.hash_iff,
    hInv.pos_ok, hInv.mirror, hInv.prov, hInv.child_done, hInv.trace_order⟩

theorem getD_lt_eq_getElem {α : Type} (l : List α) (d : α) (i : Nat) (h : i < l.length) :
    l.getD i d = l[i] := by
  rw [List.getD_eq_getElem?_getD, List.getElem?_eq_getElem h]
  rfl

/-- Pushing a valid id onto the completed trace preserves the invariant,
provided every nonterminal child of that task already has a matching entry. -/
theorem TAInv_push_completed (g : Grammar) (completed : List Nat) (ta : TraceArena)
    (tid : Nat) (hInv : TAInv g completed ta) (htid : tid < ta.arena.length) :
    TAInv g (completed ++ [tid]) ta := by
  refine ⟨hInv.queue_lt, ?_, hInv.cont_lt, hInv.cont_next, hInv.sig_nodup, hInv.hash_iff,
    hInv.pos_ok, hInv.mirror, hInv.prov, ?_, ?_⟩
  · intro tid' htid'
    rcases List.mem_append.mp htid' with hl | hr
    · exact hInv.completed_lt tid' hl
    · rw [List.mem_singleton] at hr; subst hr; exact htid
  · intro t' ht' ch hch
    obtain ⟨tid', htid', hsig⟩ := hInv.child_done t' ht' ch hch
    exact ⟨tid', List.mem_append_left _ htid', hsig⟩
  · intro i hi ch hch
    rw [List.length_append, List.length_cons, List.length_nil] at hi
    by_cases hilt : i < completed.length
    · have hgi : (completed ++ [tid]).getD i 0 = completed.getD i 0 :=
        getD_append_lt _ _ _ _ hilt
      unfold completedTaskAt at hch ⊢
      rw [hgi] at hch
      obtain ⟨j, hj, hsigj⟩ := hInv.trace_order i hilt ch hch
      refine ⟨j, hj, ?_⟩
      rw [getD_append_lt _ _ _ _ (by omega)]
      exact hsigj
    · -- the new entry, at index `completed.length`
      have hieq : i = completed.length := by omega
      subst hieq
      unfold completedTaskAt at hch
      rw [getD_append_self] at hch
      obtain ⟨tid', htid', hsig⟩ := hInv.child_done (ta.arena.getD tid default)
        (getD_mem_of_lt _ _ _ htid) ch hch
      obtain ⟨j, hjlt, hjget⟩ := List.mem_iff_getElem.mp htid'
      refine ⟨j, hjlt, ?_⟩
      unfold completedTaskAt
      rw [getD_append_lt _ _ _ _ hjlt, getD_lt_eq_getElem _ _ _ hjlt, hjget]
      exact hsig

theorem alFind?_mem {α : Type} (l : List (String × α)) (k : String) (v : α)
    (h : alFind? l k = some v) : (k, v) ∈ l := by
  induction l with
  | nil => simp [alFind?] at h
  | cons p rest ih =>
    rw [alFind?] at h
    by_cases hp : p.1 = k
    · rw [if_pos hp] at h
      have : p = (k, v) := by
        cases p
        simp only [Option.some.injEq] at h
        simp at hp
        rw [hp, h]
      rw [← this]
      exact List.mem_cons_self _ _
    · rw [if_neg hp] at h
      exact List.mem_cons_of_mem _ (ih h)

theorem foldl_preserves {α σ : Type} (f : σ → α → σ) (P : σ → Prop) (l : List α)
    (hstep : ∀ s a, a ∈ l → P s → P (f s a)) : ∀ s, P s → P (l.foldl f s) := by
  induction l with
  | nil => intro s hs; exact hs
  | cons a rest ih =>
    intro s hs
    exact ih (fun s' a' ha' => hstep s' a' (List.mem_cons_of_mem _ ha'))
      (f s a) (hstep s a (List.mem_cons_self _ _) hs)

theorem le_lastCursor (recs : List MatchRec) :
    ∀ c, List.Chain' (· ≤ ·) (c :: recs.map MatchRec.pos) → c ≤ lastCursor c recs := by
  induction recs with
  | nil => intro c _; exact Nat.le_refl c
  | cons r rest ih =>
    intro c hchain
    rw [List.map_cons, List.chain'_cons] at hchain
    exact Nat.le_trans hchain.1 (ih r.pos hchain.2)

theorem PosOk.origin_le_pos (t : Task) (h : PosOk t) : t.origin ≤ t.pos := by
  have := le_lastCursor t.dot.matched_so_far t.origin h.1
  rwa [lastCursor_of_PosOk t h] at this

theorem ntChildrenAux_bounds (recs : List MatchRec) :
    ∀ c, List.Chain' (· ≤ ·) (c :: recs.map MatchRec.pos) →
      ∀ ch ∈ ntChildrenAux c recs,
        c ≤ ch.cursor ∧ ch.cursor ≤ ch.pos ∧ ch.pos ≤ lastCursor c recs := by
  induction recs with
  | nil => intro c _ ch hch; simp [ntChildrenAux] at hch
  | cons r rest ih =>
    intro c hchain
    rw [List.map_cons, List.chain'_cons] at hchain
    cases r with
    | Term ch0 p tm =>
      intro ch hch
      rw [ntChildrenAux] at hch
      have hb := ih p hchain.2 ch hch
      exact ⟨Nat.le_trans hchain.1 hb.1, hb.2.1, hb.2.2⟩
    | NonTerm n p m =>
      intro ch hch
      rw [ntChildrenAux] at hch
      rcases List.mem_cons.mp hch with he | hm
      · subst he
        refine ⟨Nat.le_refl c, hchain.1, ?_⟩
        show p ≤ lastCursor (MatchRec.NonTerm n p m).pos rest
        exact le_lastCursor rest p hchain.2
      · have hb := ih p hchain.2 ch hm
        exact ⟨Nat.le_trans hchain.1 hb.1, hb.2.1, hb.2.2⟩

theorem ntChildren_bounds (t : Task) (h : PosOk t) :
    ∀ ch ∈ t.ntChildren, t.origin ≤ ch.cursor ∧ ch.cursor ≤ ch.pos ∧ ch.pos ≤ t.pos := by
  intro ch hch
  have := ntChildrenAux_bounds t.dot.matched_so_far t.origin h.1 ch hch
  rwa [lastCursor_of_PosOk t h] at this

/-- `trySave` of a well-formed task: the invariant is preserved, the arena
only extends, and a returned id is valid. -/
theorem TAInv_trySave (g : Grammar) (completed : List Nat) (ta : TraceArena) (t : Task)
    (hInv : TAInv g completed ta)
    (hpos : PosOk t) (hmir : MirrorOk t) (hprov : t.dot.iteratee ∈ grammarRules g)
    (hchild : ∀ ch ∈ t.ntChildren, CompletedHas ta.arena completed ch.name ch.cursor ch.pos)
    (hid : t.id = ta.arena.length) :
    TAInv g completed (ta.trySave t).2 ∧ TAExt ta (ta.trySave t).2 ∧
      (∀ id, (ta.trySave t).1 = some id → id < (ta.trySave t).2.arena.length) := by
  by_cases h : t.sigString ∈ ta.hashes
  · rw [trySave_none_eq ta t h]
    exact ⟨hInv, TAExt.refl ta, by intro id hid'; cases hid'⟩
  · rw [trySave_some_eq ta t h]
    refine ⟨TAInv_append g completed ta t hInv hpos hmir hprov hchild h, ⟨[t], rfl⟩, ?_⟩
    intro id hid'
    simp only [Option.some.injEq] at hid'
    subst hid'
    rw [hid]
    show ta.arena.length < (ta.arena ++ [t]).length
    simp

/-- `TraceArena.task` (and `task_downstream`) preserve the invariant when the
rule comes from the grammar and origin = pos. -/
theorem TAInv_task (g : Grammar) (completed : List Nat) (ta : TraceArena)
    (name : String) (mark : Mark) (pos : Nat) (rule : Rule)
    (hInv : TAInv g completed ta) (hprov : rule ∈ grammarRules g) :
    TAInv g completed (ta.task name mark pos pos (Dotted.init rule)).2 ∧
      TAExt ta (ta.task name mark pos pos (Dotted.init rule)).2 ∧
      (∀ id, (ta.task name mark pos pos (Dotted.init rule)).1 = some id →
        id < (ta.task name mark pos pos (Dotted.init rule)).2.arena.length) := by
  apply TAInv_trySave g completed ta _ hInv
  · constructor
    · show List.Chain' (· ≤ ·) [pos]
      exact List.chain'_singleton pos
    · rfl
  · constructor
    · show (0 : Nat) ≤ rule.factors.length
      exact Nat.zero_le _
    · show List.Forall₂ recMirrors (rule.factors.take 0) []
      exact List.Forall₂.nil
  · exact hprov
  · intro ch hch
    simp [Task.ntChildren, Dotted.init, ntChildrenAux] at hch
  · rfl

/-- `TraceArena.task_advance_cursor` preserves the invariant when the record
advances position monotonically, mirrors the next factor, and (for a
nonterminal record) has a matching completed item. -/
theorem TAInv_advance (g : Grammar) (completed : List Nat) (ta : TraceArena)
    (frm : Nat) (r : MatchRec)
    (hInv : TAInv g completed ta) (hfrm : frm < ta.arena.length)
    (hge : (ta.getTask frm).pos ≤ r.pos)
    (hmir : ∃ f, (ta.getTask frm).dot.next_unparsed = some f ∧ recMirrors f r)
    (hchild : ∀ n p m, r = .NonTerm n p m →
      CompletedHas ta.arena completed n (ta.getTask frm).pos p) :
    TAInv g completed (ta.task_advance_cursor frm r).2 ∧
      TAExt ta (ta.task_advance_cursor frm r).2 ∧
      (∀ id, (ta.task_advance_cursor frm r).1 = some id →
        id < (ta.task_advance_cursor frm r).2.arena.length) := by
  have hmem : ta.getTask frm ∈ ta.arena := getD_mem_of_lt _ _ _ hfrm
  have hposok : PosOk (ta.getTask frm) := hInv.pos_ok _ hmem
  obtain ⟨f, hnext, hrm⟩ := hmir
  apply TAInv_trySave g completed ta _ hInv
  · exact PosOk_advance (ta.getTask frm) r _ hposok hge
  · exact MirrorOk_advance (ta.getTask frm) f r _ _ (hInv.mirror _ hmem) hnext hrm
  · show ((ta.getTask frm).dot.advance_dot r).iteratee ∈ grammarRules g
    exact hInv.prov _ hmem
  · intro ch hch
    have hexp : ntChildrenAux (ta.getTask frm).origin
        ((ta.getTask frm).dot.matched_so_far ++ [r])
        = (ta.getTask frm).ntChildren
          ++ ntChildrenAux (ta.getTask frm).pos [r] := by
      rw [ntChildrenAux_concat, lastCursor_of_PosOk _ hposok]
      rfl
    rw [show (⟨ta.arena.length, (ta.getTask frm).name, (ta.getTask frm).mark,
        (ta.getTask frm).origin, r.pos, (ta.getTask frm).dot.advance_dot r⟩ : Task).ntChildren
        = ntChildrenAux (ta.getTask frm).origin
            ((ta.getTask frm).dot.matched_so_far ++ [r]) from rfl, hexp] at hch
    rcases List.mem_append.mp hch with hl | hr
    · exact hInv.child_done _ hmem ch hl
    · cases r with
      | Term c p tm => simp [ntChildrenAux] at hr
      | NonTerm n p m =>
        rw [show ntChildrenAux (ta.getTask frm).pos [MatchRec.NonTerm n p m]
            = [⟨n, (ta.getTask frm).pos, p, m⟩] from rfl] at hr
        rw [List.mem_singleton] at hr
        subst hr
        exact hchild n p m rfl
  · rfl

theorem TAInv_queueBack (g : Grammar) (completed : List Nat) (ta : TraceArena)
    (mid : Option Nat) (hInv : TAInv g completed ta)
    (hvalid : ∀ id, mid = some id → id < ta.arena.length) :
    TAInv g completed (ta.queueBack mid) ∧ TAExt ta (ta.queueBack mid) := by
  cases mid with
  | none => exact ⟨hInv, TAExt.refl ta⟩
  | some id =>
    refine ⟨TAInv_set_queue g completed ta _ hInv ?_, ⟨[], by simp [TraceArena.queueBack]⟩⟩
    intro tid htid
    rcases List.mem_append.mp htid with hl | hr
    · exact hInv.queue_lt tid hl
    · rw [List.mem_singleton] at hr; subst hr; exact hvalid tid rfl

theorem TAInv_queueFront (g : Grammar) (completed : List Nat) (ta : TraceArena)
    (mid : Option Nat) (hInv : TAInv g completed ta)
    (hvalid : ∀ id, mid = some id → id < ta.arena.length) :
    TAInv g completed (ta.queueFront mid) ∧ TAExt ta (ta.queueFront mid) := by
  cases mid with
  | none => exact ⟨hInv, TAExt.refl ta⟩
  | some id =>
    refine ⟨TAInv_set_queue g completed ta _ hInv ?_, ⟨[], by simp [TraceArena.queueFront]⟩⟩
    intro tid htid
    rcases List.mem_cons.mp htid with hl | hr
    · subst hl; exact hvalid tid rfl
    · exact hInv.queue_lt tid hr

theorem CompletedHas_ext {ta ta' : TraceArena} (completed : List Nat)
    (n : String) (o p : Nat) (hext : TAExt ta ta')
    (hlt : ∀ tid ∈ completed, tid < ta.arena.length)
    (h : CompletedHas ta.arena completed n o p) :
    CompletedHas ta'.arena completed n o p := by
  obtain ⟨tid, htid, hsig⟩ := h
  refine ⟨tid, htid, ?_⟩
  have := hext.getTask_stable tid (hlt tid htid)
  unfold TraceArena.getTask at this
  rw [this]
  exact hsig

theorem mem_continuations_of_mem_get (ta : TraceArena) (nm : String) (cid : Nat)
    (h : cid ∈ ta.get_continuations_for nm) : (nm, cid) ∈ ta.continuations := by
  unfold TraceArena.get_continuations_for at h
  obtain ⟨pr, hpr, he⟩ := List.mem_map.mp h
  have hfil := List.mem_filter.mp hpr
  have h1 : pr.1 = nm := by simpa using hfil.2
  have : pr = (nm, cid) := by
    cases pr
    simp only at h1 he
    rw [h1, he]
  rw [← this]
  exact hfil.1

theorem TAInv_saveCont (g : Grammar) (completed : List Nat) (ta : TraceArena)
    (name : String) (tid : Nat) (hInv : TAInv g completed ta)
    (htid : tid < ta.arena.length)
    (hnext : ∃ m, (ta.getTask tid).dot.next_unparsed = some (.Nonterm m name)) :
    TAInv g completed (ta.save_continuation name tid) ∧
      TAExt ta (ta.save_continuation name tid) := by
  refine ⟨⟨hInv.queue_lt, hInv.completed_lt, ?_, ?_, hInv.sig_nodup, hInv.hash_iff,
    hInv.pos_ok, hInv.mirror, hInv.prov, hInv.child_done, hInv.trace_order⟩,
    ⟨[], by simp [TraceArena.save_continuation]⟩⟩
  · intro pr hpr
    rcases List.mem_append.mp hpr with hl | hr
    · exact hInv.cont_lt pr hl
    · rw [List.mem_singleton] at hr; subst hr; exact htid
  · intro pr hpr
    rcases List.mem_append.mp hpr with hl | hr
    · exact hInv.cont_next pr hl
    · rw [List.mem_singleton] at hr; subst hr; exact hnext

theorem completerBody_inv (g : Grammar) (completed : List Nat) (tid : Nat)
    (ta : TraceArena) (continueId : Nat)
    (hInv : TAInv g completed ta)
    (htid : tid < ta.arena.length)
    (hcid : continueId < ta.arena.length)
    (hcont : ∃ m, (ta.getTask continueId).dot.next_unparsed
      = some (.Nonterm m ((ta.getTask tid).name)))
    (hdone : CompletedHas ta.arena completed ((ta.getTask tid).name)
      ((ta.getTask tid).origin) ((ta.getTask tid).pos)) :
    TAInv g completed (completerBody tid ta continueId) ∧
      TAExt ta (completerBody tid ta continueId) := by
  unfold completerBody
  by_cases hguard : (ta.getTask continueId).pos ≠ (ta.getTask tid).origin
  · rw [if_pos hguard]
    exact ⟨hInv, TAExt.refl ta⟩
  · rw [if_neg hguard]
    push_neg at hguard
    obtain ⟨m, hm⟩ := hcont
    rw [hm]
    have hadv := TAInv_advance g completed ta continueId
      (.NonTerm ((ta.getTask tid).name) ((ta.getTask tid).pos) m)
      hInv hcid
      (by
        show (ta.getTask continueId).pos ≤ (ta.getTask tid).pos
        rw [hguard]
        exact PosOk.origin_le_pos _ (hInv.pos_ok _ (getD_mem_of_lt _ _ _ htid)))
      ⟨.Nonterm m ((ta.getTask tid).name), hm, rfl, rfl⟩
      (by
        intro n p mk heq
        injection heq with h1 h2 h3
        subst h1; subst h2; subst h3
        rw [hguard]
        exact hdone)
    obtain ⟨hInv', hext', hvalid'⟩ := hadv
    have hqb := TAInv_queueBack g completed _ _ hInv' hvalid'
    exact ⟨hqb.1, (hext'.trans' hqb.2)⟩

theorem completer_inv (g : Grammar) (completed : List Nat) (ta0 : TraceArena) (tid : Nat)
    (hInv : TAInv g completed ta0) (htid : tid < ta0.arena.length)
    (hdone : CompletedHas ta0.arena completed ((ta0.getTask tid).name)
      ((ta0.getTask tid).origin) ((ta0.getTask tid).pos)) :
    TAInv g completed (completer ta0 tid) ∧ TAExt ta0 (completer ta0 tid) := by
  unfold completer
  apply foldl_preserves (completerBody tid)
    (fun ta => TAInv g completed ta ∧ TAExt ta0 ta)
  · intro ta cid hcidmem ⟨hI, hE⟩
    have hpair := mem_continuations_of_mem_get ta0 _ cid hcidmem
    have hcid0 : cid < ta0.arena.length := hInv.cont_lt _ hpair
    have hcid : cid < ta.arena.length := Nat.lt_of_lt_of_le hcid0 hE.len_le
    have htid' : tid < ta.arena.length := Nat.lt_of_lt_of_le htid hE.len_le
    have hstid : ta.getTask tid = ta0.getTask tid := hE.getTask_stable tid htid
    have hscid : ta.getTask cid = ta0.getTask cid := hE.getTask_stable cid hcid0
    obtain ⟨m, hm⟩ := hInv.cont_next _ hpair
    have hbody := completerBody_inv g completed tid ta cid hI htid' hcid
      (by
        refine ⟨m, ?_⟩
        rw [hscid, hstid]
        exact hm)
      (by
        rw [hstid]
        exact CompletedHas_ext completed _ _ _ hE hInv.completed_lt hdone)
    exact ⟨hbody.1, hE.trans' hbody.2⟩
  · exact ⟨hInv, TAExt.refl ta0⟩

theorem predictor_inv (g : Grammar) (completed : List Nat) (ta0 : TraceArena)
    (tid : Nat) (mark : Mark) (name : String)
    (hInv : TAInv g completed ta0) (htid : tid < ta0.arena.length)
    (hnext : (ta0.getTask tid).dot.next_unparsed = some (.Nonterm mark name)) :
    TAInv g completed (predictor g tid mark name ta0) ∧
      TAExt ta0 (predictor g tid mark name ta0) := by
  unfold predictor
  obtain ⟨hInv1, hext1⟩ := TAInv_saveCont g completed ta0 name tid hInv htid ⟨mark, hnext⟩
  cases hdef : g.getDefinition? name with
  | none =>
    simp only [hdef]
    exact ⟨hInv1, hext1⟩
  | some br =>
    simp only [hdef]
    apply foldl_preserves _
      (fun ta => TAInv g completed ta ∧ TAExt ta0 ta)
    · intro ta rule hrule ⟨hI, hE⟩
      have hprov : rule ∈ grammarRules g := by
        unfold grammarRules
        exact List.mem_flatMap.mpr ⟨(name, br), alFind?_mem _ _ _ hdef, hrule⟩
      obtain ⟨hI', hE', hv'⟩ := TAInv_task g completed ta name
        (effective_mark br.mark mark) ((ta.getTask tid).pos) rule hI hprov
      have hqf := TAInv_queueFront g completed _ _ hI' hv'
      exact ⟨hqf.1, (hE.trans' hE').trans' hqf.2⟩
    · exact ⟨hInv1, hext1⟩

theorem scanner_inv (g : Grammar) (completed : List Nat) (uni : String → Char → Bool)
    (input : List Char) (ta0 : TraceArena) (tid : Nat) (tmark : TMark) (matcher : Lit)
    (hInv : TAInv g completed ta0) (htid : tid < ta0.arena.length)
    (hnext : (ta0.getTask tid).dot.next_unparsed = some (.Terminal tmark matcher)) :
    TAInv g completed (scanner uni input tid tmark matcher ta0) ∧
      TAExt ta0 (scanner uni input tid tmark matcher ta0) := by
  unfold scanner
  by_cases hacc : matcher.accept uni (getAt input (ta0.getTask tid).pos)
  · rw [if_pos hacc]
    obtain ⟨hI', hE', hv'⟩ := TAInv_advance g completed ta0 tid
      (.Term (getAt input (ta0.getTask tid).pos) ((ta0.getTask tid).pos + 1) tmark)
      hInv htid
      (by show (ta0.getTask tid).pos ≤ (ta0.getTask tid).pos + 1; omega)
      ⟨.Terminal tmark matcher, hnext, rfl⟩
      (by intro n p m heq; cases heq)
    have hqb := TAInv_queueBack g completed _ _ hI' hv'
    exact ⟨hqb.1, hE'.trans' hqb.2⟩
  · rw [if_neg hacc]
    exact ⟨hInv, TAExt.refl ta0⟩

/-- Processing one popped id preserves the state invariant. -/
theorem stepGo_inv (g : Grammar) (uni : String → Char → Bool) (input : List Char)
    (st : PState) (tid : Nat) (rest : List Nat)
    (hq : st.traces.queue = tid :: rest) (h : StInv g st) :
    StInv g (stepGo g uni input st tid rest) := by
  have htidq : tid ∈ st.traces.queue := by rw [hq]; exact List.mem_cons_self _ _
  have htid : tid < st.traces.arena.length := h.queue_lt tid htidq
  have hInv0 : TAInv g st.completed
      (⟨st.traces.arena, rest, st.traces.continuations, st.traces.hashes⟩ : TraceArena) :=
    TAInv_set_queue g st.completed st.traces rest h
      (fun tid' htid' => h.queue_lt tid' (by rw [hq]; exact List.mem_cons_of_mem _ htid'))
  unfold stepGo
  set ta0 : TraceArena :=
    ⟨st.traces.arena, rest, st.traces.continuations, st.traces.hashes⟩ with hta0
  have htid0 : tid < ta0.arena.length := htid
  by_cases hcompl : (ta0.getTask tid).dot.is_completed
  · rw [if_pos hcompl]
    have hpush := TAInv_push_completed g st.completed ta0 tid hInv0 htid0
    have hdone : CompletedHas ta0.arena (st.completed ++ [tid])
        ((ta0.getTask tid).name) ((ta0.getTask tid).origin) ((ta0.getTask tid).pos) :=
      ⟨tid, List.mem_append_right _ (List.mem_singleton.mpr rfl), rfl, rfl, rfl⟩
    exact (completer_inv g (st.completed ++ [tid]) ta0 tid hpush htid0 hdone).1
  · rw [if_neg hcompl]
    cases hnext : (ta0.getTask tid).dot.next_unparsed with
    | none => exact hInv0
    | some f =>
      cases f with
      | Nonterm mark name =>
        exact (predictor_inv g st.completed ta0 tid mark name hInv0 htid0 hnext).1
      | Terminal tmark matcher =>
        exact (scanner_inv g st.completed uni input ta0 tid tmark matcher hInv0 htid0 hnext).1

/-- One loop iteration preserves the state invariant. -/
theorem step_inv (g : Grammar) (uni : String → Char → Bool) (input : List Char)
    (st : PState) (h : StInv g st) : StInv g (step g uni input st) := by
  unfold step
  cases hq : st.traces.queue with
  | nil => exact h
  | cons tid rest => exact stepGo_inv g uni input st tid rest hq h

/-- The loop preserves the state invariant. -/
theorem loopRec_inv (g : Grammar) (uni : String → Char → Bool) (input : List Char)
    (fuel : Nat) : ∀ st : PState, StInv g st → StInv g (loopRec g uni input fuel st) := by
  induction fuel with
  | zero => intro st h; exact h
  | succ n ih =>
    intro st h
    unfold loopRec
    by_cases hq : st.traces.queue.isEmpty
    · rw [if_pos hq]; exact h
    · rw [if_neg hq]
      exact ih _ (step_inv g uni input st h)

theorem TAInv_init (g : Grammar) : TAInv g [] TraceArena.init := by
  refine ⟨?_, ?_, ?_, ?_, ?_, ?_, ?_, ?_, ?_, ?_, ?_⟩ <;>
    simp [TraceArena.init]

/-- Seeding establishes the invariant. -/
theorem initState_inv (g : Grammar) (st0 : PState) (h : initState g = .ok st0) :
    StInv g st0 := by
  unfold initState at h
  cases hroot : g.rootName? with
  | none => rw [hroot] at h; cases h
  | some rootName =>
    simp only [hroot] at h
    cases hdef : g.getDefinition? rootName with
    | none => simp only [hdef] at h; cases h
    | some topRule =>
      simp only [hdef] at h
      injection h with h
      subst h
      show TAInv g [] _
      apply foldl_preserves _ (fun ta => TAInv g [] ta)
      · intro ta alt halt hI
        have hprov : alt ∈ grammarRules g := by
          unfold grammarRules
          exact List.mem_flatMap.mpr ⟨(rootName, topRule), alFind?_mem _ _ _ hdef, halt⟩
        obtain ⟨hI', _, hv'⟩ := TAInv_task g [] ta rootName topRule.mark 0 alt hI hprov
        exact (TAInv_queueFront g [] _ _ hI' hv').1
      · exact TAInv_init g

/-- The invariant holds after seeding and any number of loop iterations. -/
theorem afterLoop_inv (g : Grammar) (uni : String → Char → Bool) (input : String)
    (fuel : Nat) (st : PState) (h : afterLoop g uni input fuel = some st) :
    StInv g st := by
  unfold afterLoop at h
  cases hinit : initState g with
  | error e => rw [hinit] at h; cases h
  | ok st0 =>
    rw [hinit] at h
    injection h with h
    subst h
    exact loopRec_inv g uni input.toList fuel st0 (initState_inv g st0 hinit)

theorem sigString_eq_sigOfTuple (t : Task) : t.sigString = sigOfTuple t.sigTuple := rfl

/-- C10: every continuation pair in the index points at a stored task whose
next-after-dot factor is a `Nonterm` with exactly the name the pair is
registered under; consequently every continuation the completer retrieves
for a name has a `Nonterm` next factor carrying that name, and its
`Terminal` branch (which would record a placeholder `'?'` character) is
unreachable. -/
theorem continuations_point_at_nonterm_factors
    (g : Grammar) (uni : String → Char → Bool) (input : String) (fuel : Nat) :
    (∀ pr ∈ contsAfter g uni input fuel,
      ∃ m, (((arenaAfter g uni input fuel).getD pr.2 default).dot.next_unparsed)
        = some (.Nonterm m pr.1)) ∧
    (∀ nm cid, cid ∈ contFor g uni input fuel nm →
      ∃ m, (((arenaAfter g uni input fuel).getD cid default).dot.next_unparsed)
        = some (.Nonterm m nm)) := by
  constructor
  · intro pr hpr
    unfold contsAfter at hpr
    unfold arenaAfter
    revert hpr
    cases hal : afterLoop g uni input fuel with
    | none =>
      intro hpr
      exact absurd hpr (List.not_mem_nil pr)
    | some st =>
      intro hpr
      exact (afterLoop_inv g uni input fuel st hal).cont_next pr hpr
  · intro nm cid hcid
    unfold contFor tracesAfter at hcid
    unfold arenaAfter
    revert hcid
    cases hal : afterLoop g uni input fuel with
    | none =>
      intro hcid
      simp [TraceArena.get_continuations_for, TraceArena.init] at hcid
    | some st =>
      intro hcid
      exact (afterLoop_inv g uni input fuel st hal).cont_next _
        (mem_continuations_of_mem_get st.traces nm cid hcid)

/-- Witness for C10 on the run of `doc = a. -a = "x".` over `"x"`: the single
continuation pair (a, 0) points at the seed task whose next factor is
`Nonterm(Default, a)`. -/
theorem continuations_point_at_nonterm_factors_witness :
    ∃ m, (((arenaAfter gC2 uniNone "x" 30).getD 0 default).dot.next_unparsed)
      = some (.Nonterm m "a") :=
  (continuations_point_at_nonterm_factors gC2 uniNone "x" 30).1 ("a", 0) (by decide)

theorem afterRun_cases (g : Grammar) (uni : String → Char → Bool) (input : String)
    (fuel : Nat) :
    (arenaAfter g uni input fuel = [] ∧ completedAfter g uni input fuel = [] ∧
      tracesAfter g uni input fuel = TraceArena.init) ∨
    (∃ st, afterLoop g uni input fuel = some st ∧ StInv g st ∧
      tracesAfter g uni input fuel = st.traces ∧
      arenaAfter g uni input fuel = st.traces.arena ∧
      completedAfter g uni input fuel = st.completed) := by
  unfold arenaAfter completedAfter tracesAfter
  cases hal : afterLoop g uni input fuel with
  | none => exact Or.inl ⟨rfl, rfl, rfl⟩
  | some st =>
    exact Or.inr ⟨st, rfl, afterLoop_inv g uni input fuel st hal, rfl, rfl, rfl⟩

/-- C6: at every point during recognition no two stored tasks share the
signature (name, effective mark, origin, position, dot contents); creating a
task whose signature was already seen stores nothing (the trace arena is
returned unchanged with no id), and enqueueing nothing leaves the queue
untouched. -/
theorem dedup_suppresses_duplicates
    (g : Grammar) (uni : String → Char → Bool) (input : String) (fuel : Nat) :
    ((arenaAfter g uni input fuel).map Task.sigTuple).Nodup ∧
    (∀ u ∈ (tracesAfter g uni input fuel).arena,
      ∀ (name : String) (mark : Mark) (origin pos : Nat) (dot : Dotted),
        (name, mark, origin, pos, dot) = u.sigTuple →
        (tracesAfter g uni input fuel).task name mark origin pos dot
          = (none, tracesAfter g uni input fuel)) ∧
    (∀ ta : TraceArena, ta.queueFront none = ta ∧ ta.queueBack none = ta) := by
  refine ⟨?_, ?_, fun ta => ⟨rfl, rfl⟩⟩
  · rcases afterRun_cases g uni input fuel with ⟨ha, _, _⟩ | ⟨st, _, hInv, _, ha, _⟩
    · rw [ha]; exact List.Pairwise.nil
    · rw [ha]
      have hs := hInv.sig_nodup
      have : st.traces.arena.map Task.sigString
          = (st.traces.arena.map Task.sigTuple).map sigOfTuple := by
        rw [List.map_map]; rfl
      rw [this] at hs
      exact hs.of_map sigOfTuple
  · intro u hu name mark origin pos dot htu
    rcases afterRun_cases g uni input fuel with ⟨_, _, ht⟩ | ⟨st, _, hInv, ht, _, _⟩
    · rw [ht] at hu
      exact absurd hu (List.not_mem_nil u)
    · rw [ht] at hu ⊢
      unfold TraceArena.task
      apply trySave_none_eq
      show Task.sigString _ ∈ st.traces.hashes
      rw [sigString_eq_sigOfTuple]
      have : (⟨st.traces.arena.length, name, mark, origin, pos, dot⟩ : Task).sigTuple
          = (name, mark, origin, pos, dot) := rfl
      rw [this, htu, ← sigString_eq_sigOfTuple]
      exact (hInv.hash_iff u.sigString).mpr ⟨u, hu, rfl⟩

/-- Witness for C6 on the run of `doc = "a", "b".` over `"ab"`: re-creating
the seed task is suppressed. -/
theorem dedup_suppresses_duplicates_witness :
    (tracesAfter gAB uniNone "ab" 20).task "doc" .Default 0 0
        (Dotted.init ⟨[.Terminal .Default (litCh 'a'), .Terminal .Default (litCh 'b')]⟩)
      = (none, tracesAfter gAB uniNone "ab" 20) := by
  apply (dedup_suppresses_duplicates gAB uniNone "ab" 20).2.1
    ((tracesAfter gAB uniNone "ab" 20).arena.getD 0 default)
  · decide
  · decide

/-- C2, amended: every record crossed by a stored task mirrors the
corresponding factor of its rule — in particular a `NonTerm` record carries
the *call-site* name and mark of the parent's `Nonterm` factor (not the
completed child's effective mark) — and every `NonTerm` record (n, c, p)
has a matching completed item with name n, origin c and position p. -/
theorem completer_appends_callsite_record
    (g : Grammar) (uni : String → Char → Bool) (input : String) (fuel : Nat) :
    (∀ t ∈ arenaAfter g uni input fuel, MirrorOk t) ∧
    (∀ t ∈ arenaAfter g uni input fuel, ∀ ch ∈ t.ntChildren,
      CompletedHas (arenaAfter g uni input fuel) (completedAfter g uni input fuel)
        ch.name ch.cursor ch.pos) := by
  rcases afterRun_cases g uni input fuel with ⟨ha, hc, _⟩ | ⟨st, _, hInv, _, ha, hc⟩
  · rw [ha, hc]
    exact ⟨fun t ht => absurd ht (List.not_mem_nil t),
      fun t ht => absurd ht (List.not_mem_nil t)⟩
  · rw [ha, hc]
    exact ⟨hInv.mirror, hInv.child_done⟩

/-- Witness for C2 (amended) on the run of `doc = a. -a = "x".` over `"x"`:
the advanced `doc` task mirrors its factors, and its NonTerm record has a
completed `a` item. -/
theorem completer_appends_callsite_record_witness :
    MirrorOk ((arenaAfter gC2 uniNone "x" 30).getD 3 default) ∧
    CompletedHas (arenaAfter gC2 uniNone "x" 30) (completedAfter gC2 uniNone "x" 30)
      "a" 0 1 := by
  constructor
  · exact (completer_appends_callsite_record gC2 uniNone "x" 30).1
      ((arenaAfter gC2 uniNone "x" 30).getD 3 default) (by decide)
  · exact (completer_appends_callsite_record gC2 uniNone "x" 30).2
      ((arenaAfter gC2 uniNone "x" 30).getD 3 default) (by decide)
      ⟨"a", 0, 1, .Default⟩ (by decide)

/-! ### Bounded positions under EOF-rejecting grammars (C4) -/

theorem queueBack_arena (ta : TraceArena) (mid : Option Nat) :
    (ta.queueBack mid).arena = ta.arena := by
  cases mid <;> rfl

theorem queueFront_arena (ta : TraceArena) (mid : Option Nat) :
    (ta.queueFront mid).arena = ta.arena := by
  cases mid <;> rfl

theorem Bound_trySave (len : Nat) (ta : TraceArena) (t : Task)
    (hB : ∀ u ∈ ta.arena, BoundOk len u) (ht : BoundOk len t) :
    ∀ u ∈ (ta.trySave t).2.arena, BoundOk len u := by
  by_cases h : t.sigString ∈ ta.hashes
  · rw [trySave_none_eq ta t h]; exact hB
  · rw [trySave_some_eq ta t h]
    intro u hu
    rcases List.mem_append.mp hu with hl | hr
    · exact hB u hl
    · rw [List.mem_singleton] at hr; subst hr; exact ht

theorem BoundOk_advance (len : Nat) (t : Task) (r : MatchRec) (id' : Nat)
    (ht : BoundOk len t) (hr : r.pos ≤ len) :
    BoundOk len ⟨id', t.name, t.mark, t.origin, r.pos, t.dot.advance_dot r⟩ := by
  refine ⟨ht.1, hr, ?_⟩
  intro rec hrec
  rcases List.mem_append.mp hrec with hl | hhr
  · exact ht.2.2 rec hl
  · rw [List.mem_singleton] at hhr; subst hhr; exact hr

theorem BoundOk_getTask (len : Nat) (ta : TraceArena) (i : Nat)
    (hB : ∀ u ∈ ta.arena, BoundOk len u) : BoundOk len (ta.getTask i) := by
  by_cases h : i < ta.arena.length
  · exact hB _ (getD_mem_of_lt _ _ _ h)
  · unfold TraceArena.getTask
    rw [List.getD_eq_getElem?_getD, List.getElem?_eq_none (Nat.le_of_not_lt h)]
    exact ⟨Nat.zero_le _, Nat.zero_le _, by intro r hr; exact absurd hr (List.not_mem_nil r)⟩

theorem Bound_completerBody (len : Nat) (tid : Nat) (ta : TraceArena) (cid : Nat)
    (hB : ∀ u ∈ ta.arena, BoundOk len u) (htid : tid < ta.arena.length) :
    ∀ u ∈ (completerBody tid ta cid).arena, BoundOk len u := by
  have htpos : (ta.getTask tid).pos ≤ len :=
    (hB _ (getD_mem_of_lt _ _ _ htid)).2.1
  unfold completerBody
  by_cases hguard : (ta.getTask cid).pos ≠ (ta.getTask tid).origin
  · rw [if_pos hguard]; exact hB
  · rw [if_neg hguard]
    cases hnext : (ta.getTask cid).dot.next_unparsed with
    | none => exact hB
    | some f =>
      cases f with
      | Nonterm mark name =>
        show ∀ u ∈ ((ta.task_advance_cursor cid
            (.NonTerm name ((ta.getTask tid).pos) mark)).2.queueBack
            (ta.task_advance_cursor cid (.NonTerm name ((ta.getTask tid).pos) mark)).1).arena,
          BoundOk len u
        rw [queueBack_arena]
        exact Bound_trySave len ta _ hB
          (BoundOk_advance len (ta.getTask cid) _ _ (BoundOk_getTask len ta cid hB) htpos)
      | Terminal tmark lit =>
        show ∀ u ∈ ((ta.task_advance_cursor cid
            (.Term qmarkChar ((ta.getTask tid).pos) tmark)).2.queueBack
            (ta.task_advance_cursor cid (.Term qmarkChar ((ta.getTask tid).pos) tmark)).1).arena,
          BoundOk len u
        rw [queueBack_arena]
        exact Bound_trySave len ta _ hB
          (BoundOk_advance len (ta.getTask cid) _ _ (BoundOk_getTask len ta cid hB) htpos)

theorem trySave_arena_ext (ta : TraceArena) (t : Task) :
    ∃ sfx, (ta.trySave t).2.arena = ta.arena ++ sfx := by
  by_cases h : t.sigString ∈ ta.hashes
  · rw [trySave_none_eq ta t h]
    exact ⟨[], by simp⟩
  · rw [trySave_some_eq ta t h]
    exact ⟨[t], rfl⟩

theorem trySave_len_mono (ta : TraceArena) (t : Task) :
    ta.arena.length ≤ (ta.trySave t).2.arena.length := by
  obtain ⟨sfx, h⟩ := trySave_arena_ext ta t
  rw [h, List.length_append]
  omega

theorem completerBody_len_mono (tid : Nat) (ta : TraceArena) (cid : Nat) :
    ta.arena.length ≤ (completerBody tid ta cid).arena.length := by
  unfold completerBody
  by_cases hguard : (ta.getTask cid).pos ≠ (ta.getTask tid).origin
  · rw [if_pos hguard]
  · rw [if_neg hguard]
    cases hnext : (ta.getTask cid).dot.next_unparsed with
    | none => exact Nat.le_refl _
    | some f =>
      cases f with
      | Nonterm mark name =>
        show ta.arena.length ≤ ((ta.task_advance_cursor cid _).2.queueBack
          (ta.task_advance_cursor cid _).1).arena.length
        rw [queueBack_arena]
        exact trySave_len_mono ta _
      | Terminal tmark lit =>
        show ta.arena.length ≤ ((ta.task_advance_cursor cid _).2.queueBack
          (ta.task_advance_cursor cid _).1).arena.length
        rw [queueBack_arena]
        exact trySave_len_mono ta _

theorem Bound_completer (len : Nat) (ta0 : TraceArena) (tid : Nat)
    (hB : ∀ u ∈ ta0.arena, BoundOk len u) (htid : tid < ta0.arena.length) :
    ∀ u ∈ (completer ta0 tid).arena, BoundOk len u := by
  unfold completer
  have := foldl_preserves (completerBody tid)
    (fun ta => (∀ u ∈ ta.arena, BoundOk len u) ∧ tid < ta.arena.length)
    (ta0.get_continuations_for (ta0.getTask tid).name)
    (fun ta cid _ hp =>
      ⟨Bound_completerBody len tid ta cid hp.1 hp.2,
       Nat.lt_of_lt_of_le hp.2 (completerBody_len_mono tid ta cid)⟩)
    ta0 ⟨hB, htid⟩
  exact this.1

theorem Bound_predictorFold (len tid : Nat) (name : String) (em : Mark)
    (alts : List Rule) (ta1 : TraceArena)
    (hB : ∀ u ∈ ta1.arena, BoundOk len u) (htid : tid < ta1.arena.length) :
    ∀ u ∈ (alts.foldl (fun ta rule =>
        let newPos := (ta.getTask tid).pos
        let (mid, ta') := ta.task_downstream name em newPos newPos (Dotted.init rule)
        ta'.queueFront mid) ta1).arena, BoundOk len u := by
  have := foldl_preserves
    (fun ta rule =>
      let newPos := (ta.getTask tid).pos
      let (mid, ta') := ta.task_downstream name em newPos newPos (Dotted.init rule)
      ta'.queueFront mid)
    (fun ta => (∀ u ∈ ta.arena, BoundOk len u) ∧ tid < ta.arena.length)
    alts
    (fun ta rule _ hp => by
      constructor
      · show ∀ u ∈ ((ta.task_downstream name em ((ta.getTask tid).pos) ((ta.getTask tid).pos)
            (Dotted.init rule)).2.queueFront
            (ta.task_downstream name em ((ta.getTask tid).pos) ((ta.getTask tid).pos)
              (Dotted.init rule)).1).arena, BoundOk len u
        rw [queueFront_arena]
        apply Bound_trySave len ta _ hp.1
        have hple : (ta.getTask tid).pos ≤ len := (BoundOk_getTask len ta tid hp.1).2.1
        exact ⟨hple, hple, by intro r hr; exact absurd hr (List.not_mem_nil r)⟩
      · show tid < ((ta.task_downstream name em ((ta.getTask tid).pos) ((ta.getTask tid).pos)
            (Dotted.init rule)).2.queueFront
            (ta.task_downstream name em ((ta.getTask tid).pos) ((ta.getTask tid).pos)
              (Dotted.init rule)).1).arena.length
        rw [queueFront_arena]
        exact Nat.lt_of_lt_of_le hp.2 (trySave_len_mono ta _))
    ta1 ⟨hB, htid⟩
  exact this.1

theorem Bound_predictor (g : Grammar) (len : Nat) (tid : Nat) (mark : Mark) (name : String)
    (ta0 : TraceArena) (hB : ∀ u ∈ ta0.arena, BoundOk len u)
    (htid : tid < ta0.arena.length) :
    ∀ u ∈ (predictor g tid mark name ta0).arena, BoundOk len u := by
  unfold predictor
  exact Bound_predictorFold len tid name _ _ (ta0.save_continuation name tid) hB htid

theorem Bound_scanner (g : Grammar) (uni : String → Char → Bool) (input : List Char)
    (tid : Nat) (tmark : TMark) (matcher : Lit) (ta0 : TraceArena)
    (hB : ∀ u ∈ ta0.arena, BoundOk input.length u)
    (hrej : LitsReject g uni) (hmlit : matcher ∈ grammarLits g) :
    ∀ u ∈ (scanner uni input tid tmark matcher ta0).arena, BoundOk input.length u := by
  unfold scanner
  by_cases hacc : matcher.accept uni (getAt input (ta0.getTask tid).pos)
  · rw [if_pos hacc]
    have hlt : (ta0.getTask tid).pos < input.length := by
      by_contra hge
      have : getAt input (ta0.getTask tid).pos = eofChar := by
        unfold getAt
        rw [List.getD_eq_getElem?_getD, List.getElem?_eq_none (Nat.le_of_not_lt hge)]
        rfl
      rw [this] at hacc
      rw [hrej matcher hmlit] at hacc
      exact Bool.noConfusion hacc
    show ∀ u ∈ ((ta0.task_advance_cursor tid _).2.queueBack
      (ta0.task_advance_cursor tid _).1).arena, BoundOk input.length u
    rw [queueBack_arena]
    apply Bound_trySave _ ta0 _ hB
    exact BoundOk_advance _ (ta0.getTask tid) _ _ (BoundOk_getTask _ ta0 tid hB) hlt
  · rw [if_neg hacc]
    exact hB

theorem lit_mem_grammarLits (g : Grammar) (t : Task) (tmark : TMark) (matcher : Lit)
    (hprov : t.dot.iteratee ∈ grammarRules g)
    (hnext : t.dot.next_unparsed = some (.Terminal tmark matcher)) :
    matcher ∈ grammarLits g := by
  unfold grammarLits
  apply List.mem_flatMap.mpr
  refine ⟨t.dot.iteratee, hprov, ?_⟩
  apply List.mem_filterMap.mpr
  refine ⟨.Terminal tmark matcher, ?_, rfl⟩
  rw [Dotted.next_unparsed] at hnext
  exact List.get?_mem hnext

theorem stepGo_bound (g : Grammar) (uni : String → Char → Bool) (input : List Char)
    (st : PState) (tid : Nat) (rest : List Nat)
    (hq : st.traces.queue = tid :: rest) (hInv : StInv g st)
    (hB : ∀ u ∈ st.traces.arena, BoundOk input.length u)
    (hrej : LitsReject g uni) :
    ∀ u ∈ (stepGo g uni input st tid rest).traces.arena, BoundOk input.length u := by
  have htid : tid < st.traces.arena.length :=
    hInv.queue_lt tid (by rw [hq]; exact List.mem_cons_self _ _)
  unfold stepGo
  set ta0 : TraceArena :=
    ⟨st.traces.arena, rest, st.traces.continuations, st.traces.hashes⟩ with hta0
  have hB0 : ∀ u ∈ ta0.arena, BoundOk input.length u := hB
  have htid0 : tid < ta0.arena.length := htid
  by_cases hcompl : (ta0.getTask tid).dot.is_completed
  · rw [if_pos hcompl]
    exact Bound_completer input.length ta0 tid hB0 htid0
  · rw [if_neg hcompl]
    cases hnext : (ta0.getTask tid).dot.next_unparsed with
    | none => exact hB0
    | some f =>
      cases f with
      | Nonterm mark name =>
        exact Bound_predictor g input.length tid mark name ta0 hB0 htid0
      | Terminal tmark matcher =>
        have hprov : (ta0.getTask tid).dot.iteratee ∈ grammarRules g := by
          have hmem : ta0.getTask tid ∈ ta0.arena := getD_mem_of_lt _ _ _ htid0
          exact hInv.prov _ hmem
        exact Bound_scanner g uni input tid tmark matcher ta0 hB0 hrej
          (lit_mem_grammarLits g _ tmark matcher hprov hnext)

theorem step_bound (g : Grammar) (uni : String → Char → Bool) (input : List Char)
    (st : PState) (hInv : StInv g st)
    (hB : ∀ u ∈ st.traces.arena, BoundOk input.length u)
    (hrej : LitsReject g uni) :
    ∀ u ∈ (step g uni input st).traces.arena, BoundOk input.length u := by
  unfold step
  cases hq : st.traces.queue with
  | nil => exact hB
  | cons tid rest => exact stepGo_bound g uni input st tid rest hq hInv hB hrej

theorem loopRec_bound (g : Grammar) (uni : String → Char → Bool) (input : List Char)
    (fuel : Nat) (hrej : LitsReject g uni) :
    ∀ st : PState, StInv g st → (∀ u ∈ st.traces.arena, BoundOk input.length u) →
      ∀ u ∈ (loopRec g uni input fuel st).traces.arena, BoundOk input.length u := by
  induction fuel with
  | zero => intro st _ hB; exact hB
  | succ n ih =>
    intro st hInv hB
    unfold loopRec
    by_cases hq : st.traces.queue.isEmpty
    · rw [if_pos hq]; exact hB
    · rw [if_neg hq]
      exact ih _ (step_inv g uni input st hInv) (step_bound g uni input st hInv hB hrej)

theorem initState_bound (g : Grammar) (st0 : PState) (len : Nat)
    (h : initState g = .ok st0) : ∀ u ∈ st0.traces.arena, BoundOk len u := by
  unfold initState at h
  cases hroot : g.rootName? with
  | none => rw [hroot] at h; cases h
  | some rootName =>
    simp only [hroot] at h
    cases hdef : g.getDefinition? rootName with
    | none => simp only [hdef] at h; cases h
    | some topRule =>
      simp only [hdef] at h
      injection h with h
      subst h
      show ∀ u ∈ (topRule.alts.foldl _ TraceArena.init).arena, BoundOk len u
      have := foldl_preserves
        (fun ta alt =>
          let (mid, ta') := ta.task rootName topRule.mark 0 0 (Dotted.init alt)
          ta'.queueFront mid)
        (fun ta => ∀ u ∈ ta.arena, BoundOk len u)
        topRule.alts
        (fun ta alt _ hp => by
          show ∀ u ∈ ((ta.task rootName topRule.mark 0 0 (Dotted.init alt)).2.queueFront
            (ta.task rootName topRule.mark 0 0 (Dotted.init alt)).1).arena, BoundOk len u
          rw [queueFront_arena]
          apply Bound_trySave len ta _ hp
          exact ⟨Nat.zero_le _, Nat.zero_le _,
            by intro r hr; exact absurd hr (List.not_mem_nil r)⟩)
        TraceArena.init
        (by intro u hu; exact absurd hu (List.not_mem_nil u))
      exact this

/-- C4, amended: the scanner feeds the EOF sentinel `'\x1f'` to the matcher
at or past the end of input, and the branch dies exactly when the matcher
rejects it; provided no character class of the grammar accepts `'\x1f'`,
every stored task's origin, position, and record end positions stay within
the input length — no Term record ever reaches past the end. -/
theorem no_record_past_eof_when_sentinel_rejected
    (g : Grammar) (uni : String → Char → Bool) (input : String) (fuel : Nat)
    (hrej : LitsReject g uni) :
    ∀ t ∈ arenaAfter g uni input fuel,
      t.origin ≤ input.length ∧ t.pos ≤ input.length ∧
        ∀ r ∈ t.dot.matched_so_far, r.pos ≤ input.length := by
  intro t ht
  unfold arenaAfter at ht
  revert ht
  unfold afterLoop
  cases hinit : initState g with
  | error e =>
    intro ht
    exact absurd ht (List.not_mem_nil t)
  | ok st0 =>
    intro ht
    have hb0 : ∀ u ∈ st0.traces.arena, BoundOk input.toList.length u :=
      initState_bound g st0 _ hinit
    have := loopRec_bound g uni input.toList fuel hrej st0
      (initState_inv g st0 hinit) hb0 t ht
    exact this

/-- Witness for C4 (amended) on `doc = "a","b".` over `"ab"` (whose only
classes are plain inclusions, rejecting the sentinel). -/
theorem no_record_past_eof_witness :
    ((arenaAfter gAB uniNone "ab" 20).getD 2 default).origin ≤ ("ab" : String).length ∧
    ((arenaAfter gAB uniNone "ab" 20).getD 2 default).pos ≤ ("ab" : String).length ∧
    ∀ r ∈ ((arenaAfter gAB uniNone "ab" 20).getD 2 default).dot.matched_so_far,
      r.pos ≤ ("ab" : String).length :=
  no_record_past_eof_when_sentinel_rejected gAB uniNone "ab" 20
    (by unfold LitsReject; decide)
    ((arenaAfter gAB uniNone "ab" 20).getD 2 default) (by decide)

/-! ### Termination of the tree-reconstruction walk -/

theorem findRank_le_length (p : Task → Bool) : ∀ L : List Task, findRank p L ≤ L.length := by
  intro L
  induction L with
  | nil => exact Nat.le_refl 0
  | cons t rest ih =>
    show (if p t then 0 else findRank p rest + 1) ≤ rest.length + 1
    cases hp : p t with
    | true => simp
    | false => simpa using ih

theorem findRank_spec (p : Task → Bool) : ∀ (L : List Task) (t : Task), L.find? p = some t →
    p t = true ∧ findRank p L < L.length ∧ L.getD (findRank p L) default = t := by
  intro L
  induction L with
  | nil => intro t h; cases h
  | cons a rest ih =>
    intro t h
    cases hp : p a with
    | true =>
      simp only [List.find?, hp] at h
      injection h with h
      subst h
      refine ⟨hp, ?_, ?_⟩
      · show (if p a then 0 else findRank p rest + 1) < rest.length + 1
        rw [hp]; simp
      · show (a :: rest).getD (if p a then 0 else findRank p rest + 1) default = a
        rw [hp]; rfl
    | false =>
      simp only [List.find?, hp] at h
      obtain ⟨hpt, hlt, hgd⟩ := ih t h
      refine ⟨hpt, ?_, ?_⟩
      · show (if p a then 0 else findRank p rest + 1) < rest.length + 1
        rw [hp]; simpa using hlt
      · show (a :: rest).getD (if p a then 0 else findRank p rest + 1) default = t
        rw [hp]; simpa using hgd

theorem findRank_le_of_found (p : Task → Bool) : ∀ (L : List Task) (j : Nat),
    j < L.length → p (L.getD j default) = true → findRank p L ≤ j := by
  intro L
  induction L with
  | nil => intro j hj; intro _; exact absurd hj (by simp)
  | cons a rest ih =>
    intro j hj hpj
    show (if p a then 0 else findRank p rest + 1) ≤ j
    cases hp : p a with
    | true => simp
    | false =>
      simp only [Bool.false_eq_true, if_false]
      cases j with
      | zero =>
        have : p a = true := hpj
        rw [hp] at this; cases this
      | succ j' =>
        have := ih j' (by simpa using Nat.lt_of_succ_lt_succ hj) (by simpa using hpj)
        omega

theorem mapped_getD (tasks : List Task) (completed : List Nat) (i : Nat)
    (h : i < completed.length) :
    (completed.map (fun tid => tasks.getD tid default)).getD i default =
      completedTaskAt tasks completed i := by
  rw [getD_lt_eq_getElem _ _ i (by simpa using h), List.getElem_map]
  unfold completedTaskAt
  rw [getD_lt_eq_getElem completed 0 i h]

theorem runRecs_isSome (wc : TreeArena → String → Mark → Nat → Nat → Option TreeArena)
    (name : String) (origin endPos myId : Nat) :
    ∀ (recs : List MatchRec) (arena : TreeArena) (cursor : Nat),
      (∀ ch ∈ ntChildrenAux cursor recs,
        ¬(ch.name = name ∧ ch.cursor = origin ∧ ch.pos = endPos) ∧
        ∀ a, (wc a ch.name ch.mark ch.cursor ch.pos).isSome = true) →
      (runRecs wc name origin endPos myId recs arena cursor).isSome = true := by
  intro recs
  induction recs with
  | nil => intro arena cursor _; rfl
  | cons r rest ih =>
    intro arena cursor H
    cases r with
    | Term ch p tm =>
      show (runRecs wc name origin endPos myId (.Term ch p tm :: rest)
        arena cursor).isSome = true
      simp only [runRecs]
      exact ih _ _ (fun c hc => H c hc)
    | NonTerm n p m =>
      have hhead := H ⟨n, cursor, p, m⟩ (by simp [ntChildrenAux])
      have hcond : (n == name && cursor == origin && p == endPos) = false := by
        rcases Bool.eq_false_or_eq_true (n == name && cursor == origin && p == endPos)
          with h | h
        · exact absurd (by simpa [Bool.and_eq_true, beq_iff_eq, and_assoc] using h) hhead.1
        · exact h
      show (runRecs wc name origin endPos myId (.NonTerm n p m :: rest)
        arena cursor).isSome = true
      simp only [runRecs, hcond, Bool.false_eq_true, if_false]
      have hsome : (wc arena n m cursor p).isSome = true := hhead.2 arena
      cases hwc : wc arena n m cursor p with
      | none => rw [hwc] at hsome; cases hsome
      | some arena' =>
        show (runRecs wc name origin endPos myId rest arena' p).isSome = true
        exact ih _ _ (fun c hc => H c (List.mem_cons_of_mem _ hc))

theorem walk_isSome (tasks : List Task) (completed : List Nat)
    (hord : ∀ i, i < completed.length →
      ∀ ch ∈ (completedTaskAt tasks completed i).ntChildren,
        ∃ j, j < i ∧ sigIs (completedTaskAt tasks completed j) ch.name ch.cursor ch.pos) :
    ∀ (fuel : Nat) (name : String) (origin endPos : Nat),
      walkRank tasks completed name origin endPos < fuel →
      ∀ (arena : TreeArena) (mark : Mark) (root : Nat),
        (walk tasks completed fuel arena name mark origin endPos root).isSome = true := by
  intro fuel
  induction fuel with
  | zero => intro name origin endPos h; exact absurd h (Nat.not_lt_zero _)
  | succ fuel ih =>
    intro name origin endPos hrank arena mark root
    cases hfind : filter_completed_trace tasks completed name origin endPos with
    | none => simp [walk, hfind]
    | some task =>
      have hfind' : (completed.map (fun tid => tasks.getD tid default)).find?
          (fun t => t.name == name && t.origin == origin && t.pos == endPos) = some task := by
        simpa [filter_completed_trace] using hfind
      obtain ⟨hpt, hlt, hgd⟩ := findRank_spec _ _ task hfind'
      have hlen : findRank (fun t => t.name == name && t.origin == origin && t.pos == endPos)
          (completed.map (fun tid => tasks.getD tid default)) < completed.length := by
        simpa using hlt
      have hcat : completedTaskAt tasks completed
          (findRank (fun t => t.name == name && t.origin == origin && t.pos == endPos)
            (completed.map (fun tid => tasks.getD tid default))) = task := by
        rw [← mapped_getD tasks completed _ hlen]; exact hgd
      have hsigT : task.name = name ∧ task.origin = origin ∧ task.pos = endPos := by
        simpa [Bool.and_eq_true, beq_iff_eq, and_assoc] using hpt
      have hrank' : findRank (fun t => t.name == name && t.origin == origin && t.pos == endPos)
          (completed.map (fun tid => tasks.getD tid default)) < fuel + 1 := hrank
      simp only [walk, hfind]
      apply runRecs_isSome
      intro c hc
      have hc' : c ∈ task.ntChildren := by
        show c ∈ ntChildrenAux task.origin task.dot.matched_so_far
        rw [hsigT.2.1]; exact hc
      obtain ⟨j, hj, hsig⟩ := hord _ hlen c (by rw [hcat]; exact hc')
      obtain ⟨e1, e2, e3⟩ := hsig
      constructor
      · rintro ⟨h1, h2, h3⟩
        have hpj : (fun t => t.name == name && t.origin == origin && t.pos == endPos)
            ((completed.map (fun tid => tasks.getD tid default)).getD j default) = true := by
          rw [mapped_getD tasks completed j (Nat.lt_trans hj hlen)]
          simp [e1, e2, e3, h1, h2, h3]
        have hle := findRank_le_of_found
          (fun t => t.name == name && t.origin == origin && t.pos == endPos)
          (completed.map (fun tid => tasks.getD tid default)) j
          (by rw [List.length_map]; exact Nat.lt_trans hj hlen) hpj
        omega
      · intro a
        have hpj : (fun t => t.name == c.name && t.origin == c.cursor && t.pos == c.pos)
            ((completed.map (fun tid => tasks.getD tid default)).getD j default) = true := by
          rw [mapped_getD tasks completed j (Nat.lt_trans hj hlen)]
          simp [e1, e2, e3]
        have hle := findRank_le_of_found
          (fun t => t.name == c.name && t.origin == c.cursor && t.pos == c.pos)
          (completed.map (fun tid => tasks.getD tid default)) j
          (by rw [List.length_map]; exact Nat.lt_trans hj hlen) hpj
        have hcr : walkRank tasks completed c.name c.cursor c.pos < fuel := by
          show findRank (fun t => t.name == c.name && t.origin == c.cursor && t.pos == c.pos)
            (completed.map (fun tid => tasks.getD tid default)) < fuel
          omega
        exact ih c.name c.cursor c.pos hcr a c.mark _

theorem unpack_isSome_of_inv (g : Grammar) (st : PState) (hInv : StInv g st) :
    (unpack_parse_tree g st).isSome = true := by
  have hrk : walkRank st.traces.arena st.completed ((g.rootName?).getD "") 0 st.farthest
      < walkFuel st := by
    have h1 : walkRank st.traces.arena st.completed ((g.rootName?).getD "") 0 st.farthest
        ≤ st.completed.length := by
      have := findRank_le_length
        (fun t => t.name == (g.rootName?).getD "" && t.origin == 0 && t.pos == st.farthest)
        (st.completed.map (fun tid => st.traces.arena.getD tid default))
      simpa [walkRank] using this
    have h2 : 1 * (st.completed.length + 1) ≤ (st.farthest + 1) * (st.completed.length + 1) :=
      Nat.mul_le_mul (Nat.succ_le_succ (Nat.zero_le st.farthest))
        (Nat.le_refl (st.completed.length + 1))
    rw [Nat.one_mul] at h2
    show _ < (st.farthest + 1) * (st.completed.length + 1) + 2
    omega
  have hw := walk_isSome st.traces.arena st.completed hInv.trace_order (walkFuel st)
    ((g.rootName?).getD "") 0 st.farthest hrk ⟨[⟨none, .Root⟩]⟩ .Default 0
  unfold unpack_parse_tree
  cases hu : walk st.traces.arena st.completed (walkFuel st) ⟨[⟨none, .Root⟩]⟩
      ((g.rootName?).getD "") .Default 0 st.farthest 0 with
  | none => rw [hu] at hw; cases hw
  | some a1 => simp [hu]

/-- C7: on every recognizer-produced completed trace, the tree-reconstruction
walk terminates.  Each recursive call descends to a completed item that occurs
strictly earlier in the completed trace (a child either spans a strictly
smaller `(origin, end)` range or is a different rule completed at the same
span, and the self-recursion guard kills the only remaining case), so the
fuel `unpack_parse_tree` supplies always suffices and reconstruction returns
a tree rather than diverging. -/
theorem tree_walk_terminates (g : Grammar) (uni : String → Char → Bool) (input : String)
    (fuel : Nat) (st : PState) (h : afterLoop g uni input fuel = some st) :
    (unpack_parse_tree g st).isSome = true :=
  unpack_isSome_of_inv g st (afterLoop_inv g uni input fuel st h)

/-- Witness for C7: reconstruction terminates on the run of
`doc = "a", "b".` over `"ab"`. -/
theorem tree_walk_terminates_witness :
    (unpack_parse_tree gAB
      ((afterLoop gAB uniNone "ab" 20).getD ⟨TraceArena.init, [], 0⟩)).isSome = true :=
  tree_walk_terminates gAB uniNone "ab" 20
    ((afterLoop gAB uniNone "ab" 20).getD ⟨TraceArena.init, [], 0⟩) (by rfl)

/-- C1, amended: `parse` never reports a "no complete parse" failure.  Whenever
seeding succeeds and the recognizer loop drains its queue within the fuel,
`parse` returns `Ok` with a tree built from the completed trace — even when no
completed item spans the whole input; the only errors `parse` can return are
the seeding `StaticError`s. -/
theorem parse_ok_when_loop_drains (g : Grammar) (uni : String → Char → Bool)
    (input : String) (fuel : Nat) (st0 : PState)
    (hinit : initState g = .ok st0)
    (hdrain : (loopRec g uni input.toList fuel st0).traces.queue.isEmpty = true) :
    (parseNodes g uni input fuel).isSome = true := by
  have hInv : StInv g (loopRec g uni input.toList fuel st0) :=
    loopRec_inv g uni input.toList fuel st0 (initState_inv g st0 hinit)
  have hu := unpack_isSome_of_inv g _ hInv
  unfold parseNodes parse
  rw [hinit]
  simp only [hdrain, if_true]
  cases hup : unpack_parse_tree g (loopRec g uni input.toList fuel st0) with
  | none => rw [hup] at hu; cases hu
  | some a => simp [hup]

/-- Witness for C1 (amended) on `doc = "a","b".` over `"ab"`. -/
theorem parse_ok_when_loop_drains_witness :
    (parseNodes gAB uniNone "ab" 20).isSome = true :=
  parse_ok_when_loop_drains gAB uniNone "ab" 20
    ((initState gAB).toOption.getD ⟨TraceArena.init, [], 0⟩) (by rfl) (by rfl)

/-! ### Node-production semantics of the walk (mark handling) -/

theorem foldl_append_str : ∀ (L : List String) (acc : String),
    L.foldl (· ++ ·) acc = acc ++ String.join L := by
  intro L
  induction L with
  | nil => intro acc; simp [String.join]
  | cons x L ih =>
    intro acc
    show L.foldl (· ++ ·) (acc ++ x) = acc ++ String.join (x :: L)
    rw [ih (acc ++ x)]
    have hx : String.join (x :: L) = L.foldl (· ++ ·) x := by
      show L.foldl (· ++ ·) ("" ++ x) = L.foldl (· ++ ·) x
      rw [show ("" ++ x : String) = x from rfl]
    rw [hx, ih x, String.append_assoc]

theorem join_cons (x : String) (L : List String) :
    String.join (x :: L) = x ++ String.join L := by
  show L.foldl (· ++ ·) ("" ++ x) = x ++ String.join L
  rw [show ("" ++ x : String) = x from rfl, foldl_append_str]

theorem attr_value_foldl (a : TreeArena) : ∀ (L : List Nat) (acc : String),
    L.foldl
      (fun acc d =>
        match a.contentAt d with
        | .Text txt => acc ++ replaceQuote txt
        | _ => acc ++ "") acc
    = acc ++ String.join (L.filterMap
        (fun d =>
          match a.contentAt d with
          | .Text txt => some (replaceQuote txt)
          | _ => none)) := by
  intro L
  induction L with
  | nil => intro acc; simp [String.join]
  | cons d L ih =>
    intro acc
    cases hc : a.contentAt d with
    | Text txt =>
      simp only [List.foldl_cons, List.filterMap_cons, hc]
      rw [ih, join_cons, String.append_assoc]
    | Root =>
      simp only [List.foldl_cons, List.filterMap_cons, hc]
      rw [ih, String.append_empty]
    | Element nm =>
      simp only [List.foldl_cons, List.filterMap_cons, hc]
      rw [ih, String.append_empty]
    | Attribute nm v =>
      simp only [List.foldl_cons, List.filterMap_cons, hc]
      rw [ih, String.append_empty]

/-- C5, amended: which nodes the reconstruction emits for a completed rule.
A rule whose effective mark is `Mute` **or whose name starts with `-`**
produces no node and its crossed records are processed against the nearest
non-skipped ancestor `root`; an `Attr`-marked rule (name not starting with
`-`) appends an `Attribute` node (empty value, filled by the post-pass) under
`root` and its records attach below it; a `Default`- or `Unmute`-marked rule
(name not starting with `-`) likewise appends an `Element` node; a terminal
record with `Mute` tmark contributes no `Text` node; and the post-pass value
of an attribute node is exactly the spec's: the concatenation of the text of
its `Text` descendants with `"` replaced by `&quot;`. -/
theorem walk_node_production
    (tasks : List Task) (completed : List Nat) (fuel : Nat) (arena : TreeArena)
    (name : String) (mark : Mark) (origin endPos root : Nat) (task : Task)
    (hfind : filter_completed_trace tasks completed name origin endPos = some task)
    (wc : TreeArena → String → Mark → Nat → Nat → Option TreeArena)
    (nm : String) (o e myId : Nat) (tc : Char) (p : Nat) (rest : List MatchRec)
    (ar : TreeArena) (cur : Nat) (a : TreeArena) (nid : Nat) :
    ((task.mark = Mark.Mute ∨ startsWithDash task.name = true) →
      walk tasks completed (fuel + 1) arena name mark origin endPos root =
        runRecs (fun a2 n m c q => walk tasks completed fuel a2 n m c q root)
          name origin endPos root task.dot.matched_so_far arena origin) ∧
    (task.mark = Mark.Attr → startsWithDash task.name = false →
      walk tasks completed (fuel + 1) arena name mark origin endPos root =
        runRecs (fun a2 n m c q => walk tasks completed fuel a2 n m c q arena.nodes.length)
          name origin endPos arena.nodes.length task.dot.matched_so_far
          (arena.addChild root (.Attribute task.name "")) origin) ∧
    ((task.mark = Mark.Default ∨ task.mark = Mark.Unmute) →
      startsWithDash task.name = false →
      walk tasks completed (fuel + 1) arena name mark origin endPos root =
        runRecs (fun a2 n m c q => walk tasks completed fuel a2 n m c q arena.nodes.length)
          name origin endPos arena.nodes.length task.dot.matched_so_far
          (arena.addChild root (.Element task.name)) origin) ∧
    (runRecs wc nm o e myId (MatchRec.Term tc p TMark.Mute :: rest) ar cur =
      runRecs wc nm o e myId rest ar p) ∧
    (unpack_attr_value a nid = spec_attr_value a nid) := by
  refine ⟨?_, ?_, ?_, ?_, ?_⟩
  · intro h
    have hskip : (task.mark == Mark.Mute || startsWithDash task.name) = true := by
      rcases h with h | h
      · simp [h]
      · simp [h]
    simp [walk, hfind, hskip]
  · intro hattr hdash
    have hskip : (task.mark == Mark.Mute || startsWithDash task.name) = false := by
      simp [hattr, hdash]
    simp [walk, hfind, hskip, hattr, hdash]
  · intro h hdash
    rcases h with h | h
    · have hskip : (task.mark == Mark.Mute || startsWithDash task.name) = false := by
        simp [h, hdash]
      simp [walk, hfind, hskip, h, hdash]
    · have hskip : (task.mark == Mark.Mute || startsWithDash task.name) = false := by
        simp [h, hdash]
      simp [walk, hfind, hskip, h, hdash]
  · simp [runRecs, MatchRec.pos]
  · show (a.descendants nid).foldl
        (fun acc d =>
          match a.contentAt d with
          | .Text txt => acc ++ replaceQuote txt
          | _ => acc ++ "") ""
      = spec_attr_value a nid
    rw [attr_value_foldl]
    rfl

/-- Witness for C5 (amended): the post-pass value of a concrete attribute node
with one text descendant. -/
theorem walk_node_production_witness :
    unpack_attr_value ⟨[⟨none, Content.Root⟩, ⟨some 0, Content.Attribute "v" ""⟩,
        ⟨some 1, Content.Text "hi"⟩]⟩ 1 =
      spec_attr_value ⟨[⟨none, Content.Root⟩, ⟨some 0, Content.Attribute "v" ""⟩,
        ⟨some 1, Content.Text "hi"⟩]⟩ 1 :=
  (walk_node_production [⟨0, "x", Mark.Attr, 0, 1, ⟨⟨[]⟩, []⟩⟩] [0] 1
    ⟨[⟨none, Content.Root⟩]⟩ "x" Mark.Default 0 1 0
    ⟨0, "x", Mark.Attr, 0, 1, ⟨⟨[]⟩, []⟩⟩ (by rfl)
    (fun a2 _ _ _ _ => some a2) "x" 0 1 0 'c' 1 [] ⟨[⟨none, Content.Root⟩]⟩ 0
    ⟨[⟨none, Content.Root⟩, ⟨some 0, Content.Attribute "v" ""⟩,
      ⟨some 1, Content.Text "hi"⟩]⟩ 1).2.2.2.2
